import Mathlib

/-!
Verification of the `ogbc` stage2 Polymarket indexer (`src/stage2/src`).

The Python sources are shallowly embedded:

* Python strings are modelled as `List Char`; `None`-able values as `Option`.
* `decimal.Decimal` values (the module sets the context precision to 40)
  are modelled by `Dec`, a coefficient/exponent pair, with faithful
  ports of the CPython `_pydecimal` division, rounding (`ROUND_HALF_EVEN`),
  `normalize` and `__str__` algorithms for the non-negative values that
  occur in the decoder.
* SQLite tables (`events`, `markets`, `trades`, `sync_state` from
  `db/schema.py`) are modelled as Lean lists inside a `DB` record, and the
  store operations of `db/store.py` as explicit state-passing functions.
* Exceptions (`ValueError` raised by the decoder and by `int(...)`)
  are modelled with `Except String`.
* The indexing run (`indexer/run.py`) is modelled as a function from an
  environment (fetched logs, the metadata-discovery action, block
  timestamps) to a trace of persistence operations plus a result, so that
  ordering properties of the run can be stated.

Recursive helpers take explicit fuel so that every definition is a plain
structural recursion and evaluates by kernel reduction.
-/

namespace OGBC

/-! ## Characters and digit strings -/

/-- ASCII decimal digit test: model of `str.isdigit` restricted to ASCII
(the provider payloads and on-chain data handled by the code are ASCII). -/
def isDig (c : Char) : Bool := '0' ≤ c && c ≤ '9'

/-- Value of an ASCII decimal digit character. -/
def digVal (c : Char) : Nat := c.toNat - 48

/-- Hexadecimal digit value, as accepted by Python `int(s, 16)`. -/
def hexVal? (c : Char) : Option Nat :=
  if '0' ≤ c ∧ c ≤ '9' then some (c.toNat - 48)
  else if 'a' ≤ c ∧ c ≤ 'f' then some (c.toNat - 87)
  else if 'A' ≤ c ∧ c ≤ 'F' then some (c.toNat - 55)
  else none

/-- Decimal digit value, `none` on a non-digit. -/
def digVal? (c : Char) : Option Nat :=
  if '0' ≤ c ∧ c ≤ '9' then some (c.toNat - 48) else none

/-- Little-endian base-`b` digits of `n`, computed with explicit fuel. -/
def natDigitsAux (b : Nat) : Nat → Nat → List Nat
  | 0, _ => []
  | f + 1, n => if n = 0 then [] else n % b :: natDigitsAux b f (n / b)

/-- Little-endian base-`b` digits of `n` (executable twin of `Nat.digits`). -/
def natDigits (b n : Nat) : List Nat := natDigitsAux b n n

theorem natDigitsAux_eq (b : Nat) (hb : 1 < b) :
    ∀ fuel n, n ≤ fuel → natDigitsAux b fuel n = Nat.digits b n := by
  intro fuel
  induction fuel with
  | zero =>
    intro n hn
    simp only [Nat.le_zero] at hn
    subst hn
    simp [natDigitsAux]
  | succ f ih =>
    intro n hn
    by_cases h : n = 0
    · subst h; simp [natDigitsAux]
    · have hdiv : n / b ≤ f := by
        have h1 : n / b < n := Nat.div_lt_self (Nat.pos_of_ne_zero h) hb
        omega
      simp only [natDigitsAux, if_neg h]
      rw [ih _ hdiv, ← Nat.digits_def' hb (Nat.pos_of_ne_zero h)]

theorem natDigits_eq (b n : Nat) (hb : 1 < b) : natDigits b n = Nat.digits b n :=
  natDigitsAux_eq b hb n n le_rfl

/-- Decimal digit string of `n`, big-endian: model of Python `str(n)` for `n ≥ 0`. -/
def natChars (n : Nat) : List Char :=
  if n = 0 then ['0'] else ((natDigits 10 n).reverse).map Nat.digitChar

/-- Lowercase hexadecimal digit string of `n`, big-endian: model of `"%x" % n`. -/
def hexChars (n : Nat) : List Char :=
  if n = 0 then ['0'] else ((natDigits 16 n).reverse).map Nat.digitChar

/-- Evaluates `some` digit values of every character or fails. -/
def mapVals (f : Char → Option Nat) : List Char → Option (List Nat)
  | [] => some []
  | c :: cs =>
    match f c, mapVals f cs with
    | some d, some ds => some (d :: ds)
    | _, _ => none

/-- Numeric value of a big-endian digit-value list. -/
def beVal (b : Nat) (ds : List Nat) : Nat := Nat.ofDigits b ds.reverse

/-- Parse a non-empty all-decimal character list into a natural number. -/
def parseNat? (l : List Char) : Option Nat :=
  if l = [] then none
  else match mapVals digVal? l with
    | some ds => some (beVal 10 ds)
    | none => none

/-- Parse a non-empty all-hexadecimal character list (no `0x`) into a natural. -/
def parseHex? (l : List Char) : Option Nat :=
  if l = [] then none
  else match mapVals hexVal? l with
    | some ds => some (beVal 16 ds)
    | none => none

theorem digVal?_digitChar (d : Nat) (h : d < 10) : digVal? (Nat.digitChar d) = some d := by
  interval_cases d <;> rfl

theorem hexVal?_digitChar (d : Nat) (h : d < 16) : hexVal? (Nat.digitChar d) = some d := by
  interval_cases d <;> rfl

theorem isDig_digitChar (d : Nat) (h : d < 10) : isDig (Nat.digitChar d) = true := by
  interval_cases d <;> rfl

theorem mapVals_map_of_val {f : Char → Option Nat} {ds : List Nat}
    (h : ∀ d ∈ ds, f (Nat.digitChar d) = some d) :
    mapVals f (ds.map Nat.digitChar) = some ds := by
  induction ds with
  | nil => rfl
  | cons d ds ih =>
    have hd := h d (List.mem_cons_self d ds)
    have hrest : ∀ x ∈ ds, f (Nat.digitChar x) = some x := fun x hx => h x (List.mem_cons_of_mem d hx)
    simp [mapVals, hd, ih hrest]

theorem parseNat?_natChars (n : Nat) : parseNat? (natChars n) = some n := by
  by_cases h : n = 0
  · subst h; rfl
  · have hd : ∀ d ∈ (natDigits 10 n).reverse, d < 10 := by
      intro d hdmem
      rw [natDigits_eq 10 n (by norm_num)] at hdmem
      exact Nat.digits_lt_base (by norm_num) (List.mem_reverse.mp hdmem)
    have hmap := @mapVals_map_of_val digVal? ((natDigits 10 n).reverse)
      (fun d hdm => digVal?_digitChar d (hd d hdm))
    have hne : ((natDigits 10 n).reverse).map Nat.digitChar ≠ [] := by
      rw [natDigits_eq 10 n (by norm_num)]
      simp [Nat.digits_ne_nil_iff_ne_zero, h]
    rw [natChars, if_neg h, parseNat?, if_neg hne, hmap]
    simp only [beVal, List.reverse_reverse]
    rw [natDigits_eq 10 n (by norm_num), Nat.ofDigits_digits]

theorem parseHex?_hexChars (n : Nat) : parseHex? (hexChars n) = some n := by
  by_cases h : n = 0
  · subst h; rfl
  · have hd : ∀ d ∈ (natDigits 16 n).reverse, d < 16 := by
      intro d hdmem
      rw [natDigits_eq 16 n (by norm_num)] at hdmem
      exact Nat.digits_lt_base (by norm_num) (List.mem_reverse.mp hdmem)
    have hmap := @mapVals_map_of_val hexVal? ((natDigits 16 n).reverse)
      (fun d hdm => hexVal?_digitChar d (hd d hdm))
    have hne : ((natDigits 16 n).reverse).map Nat.digitChar ≠ [] := by
      rw [natDigits_eq 16 n (by norm_num)]
      simp [Nat.digits_ne_nil_iff_ne_zero, h]
    rw [hexChars, if_neg h, parseHex?, if_neg hne, hmap]
    simp only [beVal, List.reverse_reverse]
    rw [natDigits_eq 16 n (by norm_num), Nat.ofDigits_digits]

theorem natChars_all_digit (n : Nat) : ∀ c ∈ natChars n, isDig c = true := by
  by_cases h : n = 0
  · subst h; intro c hc; simp [natChars] at hc; subst hc; rfl
  · intro c hc
    rw [natChars, if_neg h] at hc
    obtain ⟨d, hdmem, rfl⟩ := List.mem_map.mp hc
    rw [natDigits_eq 10 n (by norm_num)] at hdmem
    exact isDig_digitChar d (Nat.digits_lt_base (by norm_num) (List.mem_reverse.mp hdmem))

theorem natChars_ne_nil (n : Nat) : natChars n ≠ [] := by
  by_cases h : n = 0
  · subst h; simp [natChars]
  · rw [natChars, if_neg h]
    intro hcon
    have h1 : (natDigits 10 n).reverse = [] := List.map_eq_nil_iff.mp hcon
    have h2 : natDigits 10 n = [] := by simpa using congrArg List.reverse h1
    rw [natDigits_eq 10 n (by norm_num)] at h2
    exact (Nat.digits_ne_nil_iff_ne_zero.mpr h) h2

/-! ## Decimal arithmetic

`trade_decoder.py` sets `getcontext().prec = 40` and computes `price` and
`size` with `decimal.Decimal`. All decimal values arising there are
non-negative, so a value is a coefficient/exponent pair. `divDec` is the
CPython `_pydecimal.Decimal.__truediv__` algorithm specialised to two
non-negative integer operands (exponent 0) under precision 40 with
`ROUND_HALF_EVEN`; `normDec` is `Decimal.normalize`; `decChars` is
`Decimal.__str__`. -/

/-- Number of decimal digits of `n`, i.e. `len(str(n))` for `n ≥ 0`. -/
def numDigits (n : Nat) : Nat := if n = 0 then 1 else (natDigits 10 n).length

/-- Context precision set by the decoder module. -/
def PREC : Nat := 40

/-- A non-negative decimal value `c * 10 ^ e`. -/
structure Dec where
  c : Nat
  e : Int
deriving DecidableEq

/-- Rational value of a decimal. -/
def decVal (d : Dec) : ℚ := (d.c : ℚ) * (10 : ℚ) ^ d.e

/-- The exact-division cleanup loop of `__truediv__`: strip trailing zeros
while the exponent is below the ideal exponent 0. The fuel equals the
number of steps needed to reach exponent 0. -/
def stripQ : Nat → Nat → Int → Nat × Int
  | 0, q, e => (q, e)
  | f + 1, q, e => if q % 10 = 0 then stripQ f (q / 10) (e + 1) else (q, e)

/-- Round `q / m` to the nearest integer, ties to even (`ROUND_HALF_EVEN`). -/
def roundHalfEven (q m : Nat) : Nat :=
  let q0 := q / m
  let r := q % m
  if 2 * r > m ∨ (2 * r = m ∧ q0 % 2 = 1) then q0 + 1 else q0

/-- The `_fix` step: restrict a coefficient to at most `PREC` digits,
rounding half-even (the context's exponent limits are never reached here). -/
def fixPrec (d : Dec) : Dec :=
  if numDigits d.c ≤ PREC then d
  else
    let k := numDigits d.c - PREC
    let q := roundHalfEven d.c (10 ^ k)
    if numDigits q > PREC then ⟨q / 10, d.e + ↑k + 1⟩ else ⟨q, d.e + ↑k⟩

/-- The shared tail of `__truediv__` once numerator and denominator have
been aligned: exact quotients strip towards the ideal exponent, inexact
ones get the round-to-odd adjustment, then `_fix` applies the context. -/
def divCore (num den : Nat) (e0 : Int) (fuel : Nat) : Dec :=
  let q := num / den
  if num % den = 0 then
    let p := stripQ fuel q e0
    fixPrec ⟨p.1, p.2⟩
  else
    fixPrec ⟨(if q % 5 = 0 then q + 1 else q), e0⟩

/-- The alignment shift of `__truediv__`:
`len(str(other)) - len(str(self)) + prec + 1`. -/
def shVal (a b : Nat) : Int :=
  (numDigits b : Int) - (numDigits a : Int) + ((PREC : Int) + 1)

/-- `Decimal(a) / Decimal(b)` for naturals `a`, `b` with `b ≠ 0`. -/
def divDec (a b : Nat) : Dec :=
  if a = 0 then ⟨0, 0⟩
  else if 0 ≤ shVal a b then
    divCore (a * 10 ^ (shVal a b).toNat) b (-shVal a b) (shVal a b).toNat
  else
    divCore a (b * 10 ^ (-shVal a b).toNat) (-shVal a b) (shVal a b).toNat

/-- Trailing-zero stripping of `normalize`, fuelled by the coefficient. -/
def stripAllAux : Nat → Nat → Int → Dec
  | 0, c, e => ⟨c, e⟩
  | f + 1, c, e => if c % 10 = 0 ∧ c ≠ 0 then stripAllAux f (c / 10) (e + 1) else ⟨c, e⟩

/-- `Decimal.normalize`: canonical zero, else strip all trailing zeros. -/
def normDec (d : Dec) : Dec :=
  if d.c = 0 then ⟨0, 0⟩ else stripAllAux d.c d.c d.e

/-- Exponent rendering of `"E%+d"`. -/
def intSignChars (z : Int) : List Char :=
  if z < 0 then '-' :: natChars (-z).toNat else '+' :: natChars z.toNat

/-- `Decimal.__str__` for a non-negative decimal. -/
def decChars (d : Dec) : List Char :=
  let ds := natChars d.c
  let le : Int := d.e + ↑ds.length
  if d.e ≤ 0 ∧ -6 < le then
    if d.e = 0 then ds
    else if 0 < le then ds.take le.toNat ++ '.' :: ds.drop le.toNat
    else '0' :: '.' :: (List.replicate (-le).toNat '0' ++ ds)
  else
    ds.take 1 ++ (if 1 < ds.length then '.' :: ds.drop 1 else []) ++ 'E' :: intSignChars (le - 1)

/-- Parse an optionally signed decimal integer. -/
def parseIntChars? (l : List Char) : Option Int :=
  match l with
  | [] => none
  | c :: ds =>
    if c = '-' then (parseNat? ds).map (fun n => -(Int.ofNat n))
    else if c = '+' then (parseNat? ds).map (fun n => Int.ofNat n)
    else (parseNat? (c :: ds)).map (fun n => Int.ofNat n)

/-- Parse a decimal string of the shape emitted by `decChars`
(`digits`, `digits.digits`, or scientific `d[.digits]E±exp`) back into the
rational number it denotes. -/
def parseDec? (l : List Char) : Option ℚ := do
  let mant := l.takeWhile (· != 'E')
  let rest := l.dropWhile (· != 'E')
  let ip := mant.takeWhile (· != '.')
  let fp := (mant.dropWhile (· != '.')).drop 1
  let i ← parseNat? ip
  let ex ← match rest with
    | [] => some (0 : Int)
    | _ :: es => parseIntChars? es
  let f ← if fp = [] then some 0 else parseNat? fp
  some (((i : ℚ) + (f : ℚ) / (10 : ℚ) ^ fp.length) * (10 : ℚ) ^ ex)

example : divDec 2000000 1000000 = ⟨2, 0⟩ := by decide
example : divDec 1000000 2000000 = ⟨5, -1⟩ := by decide
example : decChars ⟨5, -1⟩ = ['0', '.', '5'] := by decide
example : normDec (divDec 20000000 1000000) = ⟨2, 1⟩ := by decide
example : decChars ⟨2, 1⟩ = ['2', 'E', '+', '1'] := by decide
example : parseDec? ['0', '.', '5'] = some (((0 : ℚ) + (5 : ℚ) / (10 : ℚ) ^ (1 : ℕ)) * (10 : ℚ) ^ (0 : ℤ)) := rfl

/-! ## Trade decoder (`indexer/trade_decoder.py`) -/

/-- A raw provider log. Topics and hex payloads are strings; `logIndex` and
`blockNumber` are already integers (`_hex_to_int` of the provider value). -/
structure RawLog where
  topics : List (List Char)
  data : List Char
  transactionHash : List Char
  logIndex : Nat
  blockNumber : Nat
  blockHash : List Char
  address : List Char
deriving DecidableEq

/-- Drop a leading `0x` if present. -/
def strip0x (l : List Char) : List Char := if l.take 2 = ['0', 'x'] then l.drop 2 else l

/-- `_topic_to_address`: `0x` plus the low 20 bytes (40 hex chars) of a topic. -/
def topicToAddress (t : List Char) : List Char :=
  let compact := strip0x t
  '0' :: 'x' :: compact.drop (compact.length - 40)

/-- Split a character list into consecutive 64-character chunks. -/
def chunk64 : Nat → List Char → List (List Char)
  | 0, _ => []
  | f + 1, l => if l = [] then [] else l.take 64 :: chunk64 f (l.drop 64)

/-- Parse each 64-character chunk with `int(chunk, 16)`. -/
def parseWordList : List (List Char) → Except String (List Nat)
  | [] => .ok []
  | c :: cs =>
    match parseHex? c, parseWordList cs with
    | some w, .ok ws => .ok (w :: ws)
    | none, _ => .error "invalid hex in log data"
    | _, .error e => .error e

/-- `_chunk_data_words`: split the `0x`-stripped payload into 32-byte words,
failing with the `ValueError` message when the length is not a multiple of
64 hex characters. -/
def chunkDataWords (dataHex : List Char) : Except String (List Nat) :=
  let data := strip0x dataHex
  if data.length % 64 ≠ 0 then .error "unexpected log data length"
  else parseWordList (chunk64 data.length data)

/-- Zero-padded 64-character hex rendering (`"%064x" % n`). -/
def hexPad64 (n : Nat) : List Char :=
  let h := hexChars n
  List.replicate (64 - h.length) '0' ++ h

/-- Trade side, stored by the code as the strings `"BUY"` / `"SELL"`. -/
inductive Side
  | buy
  | sell
deriving DecidableEq

/-- The decoded trade record. `priceDec`/`sizeDec` are the normalized
decimals whose renderings `price`/`size` the code stores. -/
structure Trade where
  order_hash : List Char
  maker : List Char
  taker : List Char
  maker_asset_id : Nat
  taker_asset_id : Nat
  maker_amount_filled : Nat
  taker_amount_filled : Nat
  fee : Nat
  side : Side
  token_id : List Char
  priceDec : Dec
  sizeDec : Dec
  price : List Char
  size : List Char
  tx_hash : List Char
  log_index : Nat
  block_number : Nat
  block_hash : List Char
  exchange_address : List Char
deriving DecidableEq

/-- USDC fixed-point scale (`USDC_SCALE = Decimal("1000000")`). -/
def USDC_SCALE : Nat := 1000000

/-- Model of `decode_order_filled_log`. -/
def decode_order_filled_log (log : RawLog) : Except String Trade :=
  if log.topics.length < 3 then .error "OrderFilled requires at least 3 topics"
  else
    match chunkDataWords log.data with
    | .error e => .error e
    | .ok words =>
      if words.length < 6 then .error "OrderFilled data payload too short"
      else
        let order_hash_word := words.getD 0 0
        let maker_asset_id := words.getD 1 0
        let taker_asset_id := words.getD 2 0
        let maker_amount_filled := words.getD 3 0
        let taker_amount_filled := words.getD 4 0
        let fee := words.getD 5 0
        let maker := topicToAddress (log.topics.getD 1 [])
        let taker := topicToAddress (log.topics.getD 2 [])
        let side := if maker_asset_id = 0 ∧ taker_asset_id ≠ 0 then Side.buy else Side.sell
        let token_id := if side = Side.buy then taker_asset_id else maker_asset_id
        let token_amount := if side = Side.buy then taker_amount_filled else maker_amount_filled
        let usdc_amount := if side = Side.buy then maker_amount_filled else taker_amount_filled
        let sizeD := if token_amount ≠ 0 then divDec token_amount USDC_SCALE else ⟨0, 0⟩
        let priceD := if token_amount ≠ 0 then divDec usdc_amount token_amount else ⟨0, 0⟩
        let sizeN := normDec sizeD
        let priceN := normDec priceD
        .ok {
          order_hash := '0' :: 'x' :: hexPad64 order_hash_word
          maker := maker
          taker := taker
          maker_asset_id := maker_asset_id
          taker_asset_id := taker_asset_id
          maker_amount_filled := maker_amount_filled
          taker_amount_filled := taker_amount_filled
          fee := fee
          side := side
          token_id := natChars token_id
          priceDec := priceN
          sizeDec := sizeN
          price := decChars priceN
          size := decChars sizeN
          tx_hash := log.transactionHash
          log_index := log.logIndex
          block_number := log.blockNumber
          block_hash := log.blockHash
          exchange_address := log.address }

/-- The end-to-end example log of spec §8: `makerAssetId = 0`,
`takerAssetId = 555`, `makerAmountFilled = 1_000_000`,
`takerAmountFilled = 2_000_000`. -/
def exampleLog : RawLog where
  topics := [
    '0' :: 'x' :: hexPad64 0,
    '0' :: 'x' :: hexPad64 0xa1b2,
    '0' :: 'x' :: hexPad64 0xc3d4]
  data := '0' :: 'x' ::
    (hexPad64 0xfeed ++ hexPad64 0 ++ hexPad64 555 ++
     hexPad64 1000000 ++ hexPad64 2000000 ++ hexPad64 0)
  transactionHash := ['0', 'x', 'a', 'b']
  logIndex := 7
  blockNumber := 4242
  blockHash := ['0', 'x', 'c', 'd']
  address := ['0', 'x', 'e', 'f']

set_option maxRecDepth 100000 in
example : (decode_order_filled_log exampleLog).toOption.map
    (fun t => (t.side, t.token_id, t.size, t.price)) =
    some (Side.buy, ['5', '5', '5'], ['2'], ['0', '.', '5']) := by decide

/-! ## Persistence layer (`db/store.py`, schema of `db/schema.py`)

Tables are lists of rows; `AUTOINCREMENT` ids are carried as counters in
the `DB` record (SQLite row ids start at 1). `_utc_now_iso` is passed in
as an explicit `now` argument. -/

/-- Python `str.strip` of one end-stripping pass from the left. -/
def stripEndChars (p : Char → Bool) (l : List Char) : List Char :=
  (l.reverse.dropWhile p).reverse

/-- Python `str.strip(chars)`: drop matching characters from both ends. -/
def stripBoth (p : Char → Bool) (l : List Char) : List Char :=
  stripEndChars p (l.dropWhile p)

/-- Whitespace stripped by a bare `str.strip()` (ASCII range). -/
def isSpaceCh (c : Char) : Bool :=
  c == ' ' || c == '\t' || c == '\n' || c == '\r' || c == Char.ofNat 11 || c == Char.ofNat 12

/-- The double-quote character. -/
def dq : Char := Char.ofNat 34

/-- The single-quote character. -/
def sq : Char := Char.ofNat 39

/-- Model of `normalize_token_id` on an optional string (`int(...)` raising
`ValueError` becomes `Except.error`; Python `int` literals with underscores
are outside the model). -/
def normalize_token_id (tokenId : Option (List Char)) : Except String (Option (List Char)) :=
  match tokenId with
  | none => .ok none
  | some s =>
    let value := stripBoth (· == sq) (stripBoth (· == dq) (stripBoth isSpaceCh s))
    if value = [] then .ok none
    else if value.take 2 = ['0', 'x'] then
      match parseHex? (value.drop 2) with
      | some n => .ok (some (natChars n))
      | none => .error "invalid literal for int with base 16"
    else if value.all isDig then .ok (some (natChars (beVal 10 (value.map digVal))))
    else .ok (some value)

/-- Row of the `events` table. -/
structure EventRow where
  id : Nat
  event_id : Option (List Char)
  slug : List Char
  title : Option (List Char)
  description : Option (List Char)
  neg_risk : Bool
  active : Bool
  closed : Bool
  created_at : Option (List Char)
  updated_at : Option (List Char)
deriving DecidableEq

/-- The event dict passed to `upsert_event`. -/
structure EventPayload where
  event_id : Option (List Char)
  slug : List Char
  title : Option (List Char)
  description : Option (List Char)
  neg_risk : Bool
  active : Bool
  closed : Bool
  created_at : Option (List Char)
deriving DecidableEq

/-- Row of the `markets` table. -/
structure MarketRow where
  id : Nat
  event_id : Option Nat
  slug : List Char
  title : Option (List Char)
  description : Option (List Char)
  condition_id : Option (List Char)
  question_id : Option (List Char)
  oracle : Option (List Char)
  collateral_token : Option (List Char)
  yes_token_id : Option (List Char)
  no_token_id : Option (List Char)
  enable_neg_risk : Bool
  status : Option (List Char)
  created_at : Option (List Char)
  updated_at : Option (List Char)
deriving DecidableEq

/-- The market dict passed to `upsert_market` (token ids still raw). -/
structure MarketPayload where
  event_id : Option Nat
  slug : List Char
  title : Option (List Char)
  description : Option (List Char)
  condition_id : Option (List Char)
  question_id : Option (List Char)
  oracle : Option (List Char)
  collateral_token : Option (List Char)
  yes_token_id : Option (List Char)
  no_token_id : Option (List Char)
  enable_neg_risk : Bool
  status : Option (List Char)
  created_at : Option (List Char)
deriving DecidableEq

/-- Stored row of the `trades` table (the generated id and `created_at`
default are not used by any claim and are left out). -/
structure TradeRow where
  market_id : Nat
  tx_hash : List Char
  log_index : Nat
  block_number : Option Nat
  block_hash : Option (List Char)
  timestamp : Option (List Char)
  maker : Option (List Char)
  taker : Option (List Char)
  side : Option (List Char)
  outcome : Option (List Char)
  price : List Char
  size : List Char
  token_id : Option (List Char)
  maker_asset_id : Option (List Char)
  taker_asset_id : Option (List Char)
  maker_amount_filled : Option (List Char)
  taker_amount_filled : Option (List Char)
  exchange_address : Option (List Char)
deriving DecidableEq

/-- The trade dict passed to `insert_trades` (asset ids and amounts are
integers that `insert_trades` stringifies). -/
structure TradePayload where
  market_id : Nat
  tx_hash : List Char
  log_index : Nat
  block_number : Option Nat
  block_hash : Option (List Char)
  timestamp : Option (List Char)
  maker : Option (List Char)
  taker : Option (List Char)
  side : Option (List Char)
  outcome : Option (List Char)
  price : Option (List Char)
  size : Option (List Char)
  token_id : Option (List Char)
  maker_asset_id : Option Nat
  taker_asset_id : Option Nat
  maker_amount_filled : Option Nat
  taker_amount_filled : Option Nat
  exchange_address : Option (List Char)
deriving DecidableEq

/-- The row built from a payload by the `executemany` parameter tuple. -/
def rowOfPayload (t : TradePayload) : Except String TradeRow :=
  match normalize_token_id t.token_id with
  | .error e => .error e
  | .ok tid => .ok {
      market_id := t.market_id
      tx_hash := t.tx_hash
      log_index := t.log_index
      block_number := t.block_number
      block_hash := t.block_hash
      timestamp := t.timestamp
      maker := t.maker
      taker := t.taker
      side := t.side
      outcome := t.outcome
      price := t.price.getD ['0']
      size := t.size.getD ['0']
      token_id := tid
      maker_asset_id := t.maker_asset_id.map natChars
      taker_asset_id := t.taker_asset_id.map natChars
      maker_amount_filled := t.maker_amount_filled.map natChars
      taker_amount_filled := t.taker_amount_filled.map natChars
      exchange_address := t.exchange_address }

/-- The persisted store. -/
structure DB where
  events : List EventRow
  markets : List MarketRow
  trades : List TradeRow
  sync : List (List Char × Nat)
  nextEventId : Nat
  nextMarketId : Nat
deriving DecidableEq

/-- A freshly initialised database. -/
def emptyDB : DB := ⟨[], [], [], [], 1, 1⟩

/-- The update applied by the `DO UPDATE` clause of `upsert_event`: every
column of the `SET` list is overwritten, the key, id and `created_at` are
not in the list. -/
def eventRowUpdated (r : EventRow) (p : EventPayload) (now : List Char) : EventRow :=
  { r with
    event_id := p.event_id
    title := p.title
    description := p.description
    neg_risk := p.neg_risk
    active := p.active
    closed := p.closed
    updated_at := some now }

/-- The update applied by the `DO UPDATE` clause of `upsert_market`. -/
def marketRowUpdated (r : MarketRow) (p : MarketPayload) (ny nn : Option (List Char))
    (now : List Char) : MarketRow :=
  { r with
    event_id := p.event_id
    title := p.title
    description := p.description
    condition_id := p.condition_id
    question_id := p.question_id
    oracle := p.oracle
    collateral_token := p.collateral_token
    yes_token_id := ny
    no_token_id := nn
    enable_neg_risk := p.enable_neg_risk
    status := some (p.status.getD ("unknown".toList))
    updated_at := some now }

/-- Would writing `eid` as the `event_id` of the row keyed by `slug`
violate the `events.event_id` `UNIQUE` constraint (`schema.py`)? SQLite
`UNIQUE` never treats two `NULL`s as equal, so a `NULL` value cannot
conflict; a non-`NULL` value conflicts exactly when a row with a
different slug already holds it. -/
def eventIdTaken (events : List EventRow) (slug : List Char)
    (eid : Option (List Char)) : Bool :=
  match eid with
  | none => false
  | some s => events.any (fun q => !(q.slug == slug) && q.event_id == some s)

/-- Model of `upsert_event` (`INSERT ... ON CONFLICT(slug) DO UPDATE`,
then `SELECT id ... WHERE slug = ?`). The conflict target is `slug`
alone, and both the insert and the `DO UPDATE` path write the payload's
`event_id`; `events.event_id` is declared `UNIQUE`, so either path
raises `sqlite3.IntegrityError` when a row with a different slug already
holds that (non-`NULL`) `event_id` — the statement aborts and the store
is unchanged. -/
def upsert_event (db : DB) (p : EventPayload) (now : List Char) :
    Except String (DB × Nat) :=
  if eventIdTaken db.events p.slug p.event_id then
    .error "UNIQUE constraint failed: events.event_id"
  else
    match db.events.find? (fun r => r.slug == p.slug) with
    | some r =>
      let events := db.events.map (fun q =>
        if q.slug == p.slug then eventRowUpdated q p now else q)
      .ok ({ db with events := events }, r.id)
    | none =>
      let r : EventRow := {
        id := db.nextEventId
        event_id := p.event_id
        slug := p.slug
        title := p.title
        description := p.description
        neg_risk := p.neg_risk
        active := p.active
        closed := p.closed
        created_at := p.created_at
        updated_at := some now }
      .ok ({ db with events := db.events ++ [r], nextEventId := db.nextEventId + 1 },
        db.nextEventId)

/-- Model of `upsert_market` (token ids pass through `normalize_token_id`;
missing `status` defaults to `"unknown"`). -/
def upsert_market (db : DB) (p : MarketPayload) (now : List Char) : Except String (DB × Nat) :=
  match normalize_token_id p.yes_token_id, normalize_token_id p.no_token_id with
  | .error e, _ => .error e
  | _, .error e => .error e
  | .ok ny, .ok nn =>
    match db.markets.find? (fun r => r.slug == p.slug) with
    | some r =>
      let markets := db.markets.map (fun q =>
        if q.slug == p.slug then marketRowUpdated q p ny nn now else q)
      .ok ({ db with markets := markets }, r.id)
    | none =>
      let r : MarketRow := {
        id := db.nextMarketId
        event_id := p.event_id
        slug := p.slug
        title := p.title
        description := p.description
        condition_id := p.condition_id
        question_id := p.question_id
        oracle := p.oracle
        collateral_token := p.collateral_token
        yes_token_id := ny
        no_token_id := nn
        enable_neg_risk := p.enable_neg_risk
        status := some (p.status.getD ("unknown".toList))
        created_at := p.created_at
        updated_at := some now }
      .ok ({ db with markets := db.markets ++ [r], nextMarketId := db.nextMarketId + 1 },
        db.nextMarketId)

/-- Does the table already hold a row with this row's
`(tx_hash, log_index)` key? -/
def tradeKeyMem (trades : List TradeRow) (row : TradeRow) : Bool :=
  trades.any (fun r => r.tx_hash == row.tx_hash && r.log_index == row.log_index)

/-- One `INSERT OR IGNORE` step per payload row; duplicates of the
`(tx_hash, log_index)` key are ignored, `acc` counts actual insertions. -/
def insertTradesGo (trades : List TradeRow) (batch : List TradePayload) (acc : Nat) :
    Except String (List TradeRow × Nat) :=
  match batch with
  | [] => .ok (trades, acc)
  | t :: ts =>
    match rowOfPayload t with
    | .error e => .error e
    | .ok row =>
      if tradeKeyMem trades row then
        insertTradesGo trades ts acc
      else
        insertTradesGo (trades ++ [row]) ts (acc + 1)

/-- Model of `insert_trades`: bulk `INSERT OR IGNORE`, returning the
`conn.total_changes` delta, i.e. the number of rows actually inserted. -/
def insert_trades (db : DB) (batch : List TradePayload) : Except String (DB × Nat) :=
  match insertTradesGo db.trades batch 0 with
  | .error e => .error e
  | .ok (tr, n) => .ok ({ db with trades := tr }, n)

/-- Model of `update_sync_state` (`INSERT ... ON CONFLICT(key) DO UPDATE`). -/
def update_sync_state (db : DB) (key : List Char) (lastBlock : Nat) : DB :=
  if db.sync.any (fun kv => kv.1 == key) then
    { db with sync := db.sync.map (fun kv => if kv.1 == key then (key, lastBlock) else kv) }
  else
    { db with sync := db.sync ++ [(key, lastBlock)] }

/-- Model of `get_sync_state`: `none` when the key was never written. -/
def get_sync_state (db : DB) (key : List Char) : Option Nat :=
  (db.sync.find? (fun kv => kv.1 == key)).map (fun kv => kv.2)

/-- Model of `fetch_market_by_token_id`: normalize, then return the first
row whose yes or no token id matches (`fetchone` on an unordered query). -/
def fetch_market_by_token_id (db : DB) (tokenId : Option (List Char)) :
    Except String (Option MarketRow) :=
  match normalize_token_id tokenId with
  | .error e => .error e
  | .ok none => .ok none
  | .ok (some tid) =>
    .ok (db.markets.find? (fun m => m.yes_token_id == some tid || m.no_token_id == some tid))

/-! ## Block range resolution (`determine_block_range` in `indexer/run.py`)

Block numbers are Python ints, modelled as `Int`; `head` is the value of
`w3.eth.block_number` and `cursor` the persisted `get_sync_state` result. -/

/-- First option if set, else the second (used for "fill an unset bound"). -/
def optOr (x y : Option Int) : Option Int :=
  match x with
  | some v => some v
  | none => y

/-- The resolved lower bound, before the range check: an unset `from` is
filled by the reference block, else by cursor + 1, else by
`max(0, head - 10)`. -/
def resolved_from (head : Int) (cursor : Option Int) (fromBlock txBlock : Option Int) : Int :=
  match optOr fromBlock txBlock with
  | some f => f
  | none =>
    match cursor with
    | some last => last + 1
    | none => max 0 (head - 10)

/-- The resolved upper bound, before the range check: an unset `to` is
filled by the reference block, else by the resolved `from` bound when that
one is set, else by the chain head. -/
def resolved_to (head : Int) (fromBlock toBlock txBlock : Option Int) : Int :=
  match optOr (optOr toBlock txBlock) (optOr fromBlock txBlock) with
  | some t => t
  | none => head

/-- Model of `determine_block_range`. -/
def determine_block_range (head : Int) (cursor : Option Int)
    (fromBlock toBlock txBlock : Option Int) : Except String (Int × Int) :=
  let f := resolved_from head cursor fromBlock txBlock
  let t := resolved_to head fromBlock toBlock txBlock
  if f > t then .error "from_block must be <= to_block"
  else .ok (f, t)

/-! ## Indexing run (`run_indexer` in `indexer/run.py`)

The run is modelled against an environment carrying the values obtained
over the network: the logs `_collect_logs` would return (or its failure),
the state transformation performed by `discover_markets` for the run's
event slug, and the block timestamps. The run yields a trace of
persistence/discovery operations next to its result, so ordering claims
can be stated. -/

/-- Observable operations of a run. -/
inductive Op
  | discover
  | insert (count : Nat)
  | updateSync (key : List Char) (lastBlock : Nat)
deriving DecidableEq

/-- Network-dependent inputs of one run. -/
structure RunEnv where
  fetchLogs : Except String (List RawLog)
  discover : DB → Except String DB
  blockTs : Nat → List Char

/-- Python truthiness of the optional `event_slug` string. -/
def slugTruthy : Option (List Char) → Bool
  | some s => !s.isEmpty
  | none => false

/-- The mutable state of the decode loop. -/
structure LoopState where
  db : DB
  attempted : Bool
  acc : List TradePayload
deriving DecidableEq

/-- String form of a side, as stored in the decoded dict. -/
def sideChars : Side → List Char
  | Side.buy => ['B', 'U', 'Y']
  | Side.sell => ['S', 'E', 'L', 'L']

/-- The dict appended to `to_insert` for a resolved trade. -/
def payloadOfTrade (t : Trade) (marketId : Nat) (outcome : List Char)
    (timestamp : List Char) : TradePayload where
  market_id := marketId
  tx_hash := t.tx_hash
  log_index := t.log_index
  block_number := some t.block_number
  block_hash := some t.block_hash
  timestamp := some timestamp
  maker := some t.maker
  taker := some t.taker
  side := some (sideChars t.side)
  outcome := some outcome
  price := some t.price
  size := some t.size
  token_id := some t.token_id
  maker_asset_id := some t.maker_asset_id
  taker_asset_id := some t.taker_asset_id
  maker_amount_filled := some t.maker_amount_filled
  taker_amount_filled := some t.taker_amount_filled
  exchange_address := some t.exchange_address

/-- Model of `_ensure_market_cached`: cache lookup, with at most one
discovery pass per run (guarded by `attempted`), then one retry. -/
def ensure_market_cached (env : RunEnv) (db : DB) (tokenId : List Char)
    (eventSlug : Option (List Char)) (attempted : Bool) :
    List Op × Except String (Option MarketRow × Bool × DB) :=
  match fetch_market_by_token_id db (some tokenId) with
  | .error e => ([], .error e)
  | .ok (some m) => ([], .ok (some m, attempted, db))
  | .ok none =>
    if slugTruthy eventSlug ∧ attempted = false then
      match env.discover db with
      | .error e => ([Op.discover], .error e)
      | .ok db1 =>
        match fetch_market_by_token_id db1 (some tokenId) with
        | .error e => ([Op.discover], .error e)
        | .ok m2 => ([Op.discover], .ok (m2, true, db1))
    else ([], .ok (none, attempted, db))

/-- One iteration of the `for raw_log in logs` loop. Note that
`decode_order_filled_log` is called without an exception handler, so its
`ValueError` aborts the whole loop. -/
def processLog (env : RunEnv) (eventSlug : Option (List Char)) (st : LoopState)
    (log : RawLog) : List Op × Except String LoopState :=
  match decode_order_filled_log log with
  | .error e => ([], .error e)
  | .ok t =>
    match normalize_token_id (some t.token_id) with
    | .error e => ([], .error e)
    | .ok none => ([], .ok st)
    | .ok (some tid) =>
      match ensure_market_cached env st.db tid eventSlug st.attempted with
      | (ops, .error e) => (ops, .error e)
      | (ops, .ok (none, att, db1)) => (ops, .ok ⟨db1, att, st.acc⟩)
      | (ops, .ok (some m, att, db1)) =>
        match normalize_token_id m.yes_token_id, normalize_token_id m.no_token_id with
        | .error e, _ => (ops, .error e)
        | _, .error e => (ops, .error e)
        | .ok ys, .ok ns =>
          let outcome :=
            if ys = some tid then "YES".toList
            else if ns = some tid then "NO".toList
            else "UNKNOWN".toList
          let ts := env.blockTs t.block_number
          (ops, .ok ⟨db1, att, st.acc ++ [payloadOfTrade t m.id outcome ts]⟩)

/-- The whole decode loop. -/
def foldLogs (env : RunEnv) (eventSlug : Option (List Char)) :
    LoopState → List RawLog → List Op × Except String LoopState
  | st, [] => ([], .ok st)
  | st, log :: rest =>
    match processLog env eventSlug st log with
    | (ops, .error e) => (ops, .error e)
    | (ops, .ok st1) =>
      let pr := foldLogs env eventSlug st1 rest
      (ops ++ pr.1, pr.2)

/-- The sync-state key used by the indexer. -/
def syncKey : List Char := "trade_sync".toList

/-- Model of `run_indexer`: initial discovery, address check, log fetch,
decode loop, batch insert, cursor advance. Returns the operation trace and
either the failure or the final store plus the inserted count. -/
def run_indexer (env : RunEnv) (db : DB) (addresses : List (List Char))
    (toBlock : Nat) (eventSlug : Option (List Char)) :
    List Op × Except String (DB × Nat) :=
  let dpair : List Op × Except String DB :=
    if slugTruthy eventSlug then ([Op.discover], env.discover db) else ([], .ok db)
  match dpair with
  | (ops0, .error e) => (ops0, .error e)
  | (ops0, .ok db0) =>
    if addresses = [] then (ops0, .error "At least one exchange address must be enabled")
    else
      match env.fetchLogs with
      | .error e => (ops0, .error e)
      | .ok logs =>
        match foldLogs env eventSlug ⟨db0, false, []⟩ logs with
        | (ops1, .error e) => (ops0 ++ ops1, .error e)
        | (ops1, .ok st) =>
          match insert_trades st.db st.acc with
          | .error e => (ops0 ++ ops1, .error e)
          | .ok (db1, inserted) =>
            let db2 := update_sync_state db1 syncKey toBlock
            (ops0 ++ ops1 ++ [Op.insert inserted, Op.updateSync syncKey toBlock],
              .ok (db2, inserted))

/-! ## Properties of the persistence layer: trade insertion (claim C2) -/

deriving instance DecidableEq for Except

theorem insertTradesGo_append :
    ∀ (batch : List TradePayload) (trades : List TradeRow) (acc : Nat)
      (tr : List TradeRow) (n : Nat),
      insertTradesGo trades batch acc = .ok (tr, n) → ∃ ext, tr = trades ++ ext := by
  intro batch
  induction batch with
  | nil =>
    intro trades acc tr n h
    simp only [insertTradesGo, Except.ok.injEq, Prod.mk.injEq] at h
    exact ⟨[], by simp [← h.1]⟩
  | cons t ts ih =>
    intro trades acc tr n h
    cases hrow : rowOfPayload t with
    | error e => simp [insertTradesGo, hrow] at h
    | ok row =>
      simp only [insertTradesGo, hrow] at h
      by_cases hk : tradeKeyMem trades row = true
      · rw [if_pos hk] at h
        exact ih trades acc tr n h
      · rw [if_neg hk] at h
        obtain ⟨ext, hext⟩ := ih (trades ++ [row]) (acc + 1) tr n h
        exact ⟨[row] ++ ext, by simp [hext]⟩

theorem insertTradesGo_len :
    ∀ (batch : List TradePayload) (trades : List TradeRow) (acc : Nat)
      (tr : List TradeRow) (n : Nat),
      insertTradesGo trades batch acc = .ok (tr, n) →
      tr.length + acc = trades.length + n ∧ n ≤ acc + batch.length := by
  intro batch
  induction batch with
  | nil =>
    intro trades acc tr n h
    simp only [insertTradesGo, Except.ok.injEq, Prod.mk.injEq] at h
    obtain ⟨h1, h2⟩ := h
    subst h1; subst h2; simp
  | cons t ts ih =>
    intro trades acc tr n h
    cases hrow : rowOfPayload t with
    | error e => simp [insertTradesGo, hrow] at h
    | ok row =>
      simp only [insertTradesGo, hrow] at h
      by_cases hk : tradeKeyMem trades row = true
      · rw [if_pos hk] at h
        obtain ⟨h1, h2⟩ := ih trades acc tr n h
        exact ⟨h1, by simp only [List.length_cons]; omega⟩
      · rw [if_neg hk] at h
        obtain ⟨h1, h2⟩ := ih (trades ++ [row]) (acc + 1) tr n h
        simp only [List.length_append, List.length_cons, List.length_nil] at h1 h2 ⊢
        omega

theorem tradeKeyMem_append_left {trades : List TradeRow} (ext : List TradeRow)
    {row : TradeRow} (h : tradeKeyMem trades row = true) :
    tradeKeyMem (trades ++ ext) row = true := by
  simp only [tradeKeyMem, List.any_append] at h ⊢
  simp [h]

theorem insertTradesGo_post :
    ∀ (batch : List TradePayload) (trades : List TradeRow) (acc : Nat)
      (tr : List TradeRow) (n : Nat),
      insertTradesGo trades batch acc = .ok (tr, n) →
      ∀ t ∈ batch, ∃ row, rowOfPayload t = .ok row ∧ tradeKeyMem tr row = true := by
  intro batch
  induction batch with
  | nil => intro trades acc tr n _ t ht; exact absurd ht (by simp)
  | cons t0 ts ih =>
    intro trades acc tr n h t ht
    cases hrow : rowOfPayload t0 with
    | error e => simp [insertTradesGo, hrow] at h
    | ok row =>
      simp only [insertTradesGo, hrow] at h
      rcases List.mem_cons.mp ht with rfl | hts
      · by_cases hk : tradeKeyMem trades row = true
        · rw [if_pos hk] at h
          obtain ⟨ext, hext⟩ := insertTradesGo_append ts trades acc tr n h
          exact ⟨row, hrow, hext ▸ tradeKeyMem_append_left ext hk⟩
        · rw [if_neg hk] at h
          obtain ⟨ext, hext⟩ := insertTradesGo_append ts (trades ++ [row]) (acc + 1) tr n h
          have hself : tradeKeyMem (trades ++ [row]) row = true := by
            simp [tradeKeyMem, List.any_append]
          refine ⟨row, hrow, ?_⟩
          rw [hext]
          exact tradeKeyMem_append_left ext hself
      · by_cases hk : tradeKeyMem trades row = true
        · rw [if_pos hk] at h
          exact ih trades acc tr n h t hts
        · rw [if_neg hk] at h
          exact ih (trades ++ [row]) (acc + 1) tr n h t hts

theorem insertTradesGo_noop :
    ∀ (batch : List TradePayload) (trades : List TradeRow) (acc : Nat),
      (∀ t ∈ batch, ∃ row, rowOfPayload t = .ok row ∧ tradeKeyMem trades row = true) →
      insertTradesGo trades batch acc = .ok (trades, acc) := by
  intro batch
  induction batch with
  | nil => intro trades acc _; rfl
  | cons t0 ts ih =>
    intro trades acc h
    obtain ⟨row, hrow, hk⟩ := h t0 (List.mem_cons_self t0 ts)
    simp only [insertTradesGo, hrow]
    rw [if_pos hk]
    exact ih trades acc (fun t ht => h t (List.mem_cons_of_mem t0 ht))

/-- C2. Bulk trade insertion ignores rows whose `(tx_hash, log_index)` key
is already present: on success the row count grows by exactly the returned
count (rows actually inserted, at most the attempted count), and re-running
the same batch leaves the store unchanged and returns 0. -/
theorem insert_trades_idempotent (db : DB) (batch : List TradePayload) (db1 : DB) (n1 : Nat)
    (h : insert_trades db batch = .ok (db1, n1)) :
    insert_trades db1 batch = .ok (db1, 0) ∧
    db1.trades.length = db.trades.length + n1 ∧
    n1 ≤ batch.length := by
  cases hgo : insertTradesGo db.trades batch 0 with
  | error e => simp [insert_trades, hgo] at h
  | ok p =>
    obtain ⟨tr, n⟩ := p
    simp only [insert_trades, hgo, Except.ok.injEq, Prod.mk.injEq] at h
    obtain ⟨hdb, rfl⟩ := h
    have htr : db1.trades = tr := by rw [← hdb]
    have hpost := insertTradesGo_post batch db.trades 0 tr n hgo
    have hnoop := insertTradesGo_noop batch db1.trades 0 (by rw [htr]; exact hpost)
    have hlen := insertTradesGo_len batch db.trades 0 tr n hgo
    refine ⟨?_, ?_, by simpa using hlen.2⟩
    · simp only [insert_trades, hnoop]
    · rw [htr]; omega

/-- A small concrete trade row used by witnesses. -/
def mkRow (mid : Nat) (tx : List Char) (li : Nat) : TradeRow where
  market_id := mid
  tx_hash := tx
  log_index := li
  block_number := none
  block_hash := none
  timestamp := none
  maker := none
  taker := none
  side := none
  outcome := none
  price := ['0']
  size := ['0']
  token_id := none
  maker_asset_id := none
  taker_asset_id := none
  maker_amount_filled := none
  taker_amount_filled := none
  exchange_address := none

/-- A small concrete trade payload used by witnesses. -/
def mkPayload (mid : Nat) (tx : List Char) (li : Nat) : TradePayload where
  market_id := mid
  tx_hash := tx
  log_index := li
  block_number := none
  block_hash := none
  timestamp := none
  maker := none
  taker := none
  side := none
  outcome := none
  price := none
  size := none
  token_id := none
  maker_asset_id := none
  taker_asset_id := none
  maker_amount_filled := none
  taker_amount_filled := none
  exchange_address := none

/-- A batch with three attempted rows, two distinct keys (the third row
repeats the first key). -/
def c2batch : List TradePayload :=
  [mkPayload 1 ['a'] 0, mkPayload 1 ['a'] 1, mkPayload 9 ['a'] 0]

/-- The store after inserting `c2batch` into an empty store. -/
def c2db1 : DB := { emptyDB with trades := [mkRow 1 ['a'] 0, mkRow 1 ['a'] 1] }

theorem insert_trades_idempotent_witness :
    insert_trades emptyDB c2batch = .ok (c2db1, 2) ∧
    (insert_trades c2db1 c2batch = .ok (c2db1, 0) ∧
     c2db1.trades.length = emptyDB.trades.length + 2 ∧
     2 ≤ c2batch.length) :=
  ⟨by decide, insert_trades_idempotent emptyDB c2batch c2db1 2 (by decide)⟩

/-! ## Properties of block-range resolution (claim C4) -/

/-- C4 counterexample. With `chainHead = 5`, no cursor and no explicit
bounds, the code resolves `from` to `max(0, head - 10) = 0`, not to
`chainHead - 10 = -5` as the claim states. -/
theorem determine_block_range_cex :
    determine_block_range 5 none none none none = .ok (0, 5) ∧ (5 : Int) - 10 ≠ (0 : Int) := by
  constructor
  · rfl
  · decide

/-- C4 (amended: the unset-`from`, no-cursor default is
`max(0, chainHead - 10)`, not `chainHead - 10`). Precedence of
`determine_block_range`: a reference block fills both unset bounds; a set
`from` with unset `to` gives a single-block scan; an unset `from` becomes
cursor + 1 under a cursor, else `max(0, chainHead - 10)`; an unset `to`
becomes the chain head; resolution fails exactly when the resolved `from`
exceeds the resolved `to`. -/
theorem determine_block_range_spec :
    (∀ head : Int, ∀ cursor : Option Int, ∀ t : Int,
      determine_block_range head cursor none none (some t) = .ok (t, t)) ∧
    (∀ head : Int, ∀ cursor : Option Int, ∀ f : Int,
      determine_block_range head cursor (some f) none none = .ok (f, f)) ∧
    (∀ head n : Int, n + 1 ≤ head →
      determine_block_range head (some n) none none none = .ok (n + 1, head)) ∧
    (∀ head : Int, 0 ≤ head →
      determine_block_range head none none none none = .ok (max 0 (head - 10), head)) ∧
    (∀ head : Int, ∀ cursor fb tb txb : Option Int,
      ((∃ e, determine_block_range head cursor fb tb txb = .error e) ↔
        resolved_to head fb tb txb < resolved_from head cursor fb txb) ∧
      (∀ f t : Int, determine_block_range head cursor fb tb txb = .ok (f, t) →
        f = resolved_from head cursor fb txb ∧ t = resolved_to head fb tb txb ∧ f ≤ t)) := by
  refine ⟨?_, ?_, ?_, ?_, ?_⟩
  · intro head cursor t
    simp [determine_block_range, resolved_from, resolved_to, optOr]
  · intro head cursor f
    simp [determine_block_range, resolved_from, resolved_to, optOr]
  · intro head n h
    simp only [determine_block_range, resolved_from, resolved_to, optOr]
    rw [if_neg (by omega)]
  · intro head h
    simp only [determine_block_range, resolved_from, resolved_to, optOr]
    rw [if_neg (by omega)]
  · intro head cursor fb tb txb
    constructor
    · simp only [determine_block_range]
      by_cases hgt : resolved_to head fb tb txb < resolved_from head cursor fb txb
      · rw [if_pos (by omega)]
        exact ⟨fun _ => hgt, fun _ => ⟨_, rfl⟩⟩
      · rw [if_neg (by omega)]
        constructor
        · rintro ⟨e, he⟩
          cases he
        · intro hcon
          exact absurd hcon hgt
    · intro f t h
      simp only [determine_block_range] at h
      by_cases hgt : resolved_from head cursor fb txb > resolved_to head fb tb txb
      · rw [if_pos hgt] at h; cases h
      · rw [if_neg hgt] at h
        obtain ⟨h1, h2⟩ := (Prod.mk.injEq _ _ _ _).mp (Except.ok.inj h)
        exact ⟨h1.symm, h2.symm, by omega⟩

theorem determine_block_range_spec_witness :
    (4 : Int) + 1 ≤ 20 ∧ determine_block_range 20 (some 4) none none none = .ok (4 + 1, 20) :=
  ⟨by decide, determine_block_range_spec.2.2.1 20 4 (by decide)⟩

/-! ## Properties of upserts: update path (claim C10) -/

theorem find?_map_ite {α : Type} (l : List α) (p : α → Bool) (f : α → α)
    (hf : ∀ r, p r = true → p (f r) = true) :
    (l.map (fun q => if p q then f q else q)).find? p = (l.find? p).map f := by
  induction l with
  | nil => rfl
  | cons a l ih =>
    by_cases hp : p a = true
    · rw [List.map_cons, if_pos hp, List.find?_cons_of_pos _ (hf a hp),
        List.find?_cons_of_pos _ hp]
      rfl
    · rw [List.map_cons, if_neg hp, List.find?_cons_of_neg _ (by simpa using hp),
        List.find?_cons_of_neg _ (by simpa using hp), ih]

/-- C10. On the update path (a row with the payload's slug exists),
`upsert_event` and `upsert_market` return the existing row's id; the row
keeps its id, slug and `created_at`, gets the payload's mutable fields and
a refreshed `updated_at`; the table's size is unchanged and rows with a
different slug are untouched. For `upsert_event` this holds whenever the
statement succeeds, and the statement fails — with the
`events.event_id` `UNIQUE` violation, writing nothing — exactly when the
payload's non-`NULL` `event_id` is already held by a row with a
different slug. -/
theorem upsert_update_path :
    (∀ (db : DB) (p : EventPayload) (now : List Char) (r : EventRow) (db' : DB) (i : Nat),
      db.events.find? (fun q => q.slug == p.slug) = some r →
      upsert_event db p now = .ok (db', i) →
      i = r.id ∧
      db'.events.find? (fun q => q.slug == p.slug) = some (eventRowUpdated r p now) ∧
      ((eventRowUpdated r p now).id = r.id ∧ (eventRowUpdated r p now).slug = r.slug ∧
       (eventRowUpdated r p now).created_at = r.created_at ∧
       (eventRowUpdated r p now).updated_at = some now) ∧
      db'.events.length = db.events.length ∧
      (∀ q ∈ db.events, q.slug ≠ p.slug → q ∈ db'.events)) ∧
    (∀ (db : DB) (p : EventPayload) (now : List Char),
      upsert_event db p now = .error "UNIQUE constraint failed: events.event_id" ↔
        eventIdTaken db.events p.slug p.event_id = true) ∧
    (∀ (db : DB) (p : MarketPayload) (now : List Char) (r : MarketRow)
       (ny nn : Option (List Char)) (db' : DB) (i : Nat),
      normalize_token_id p.yes_token_id = .ok ny →
      normalize_token_id p.no_token_id = .ok nn →
      db.markets.find? (fun q => q.slug == p.slug) = some r →
      upsert_market db p now = .ok (db', i) →
      i = r.id ∧
      db'.markets.find? (fun q => q.slug == p.slug) = some (marketRowUpdated r p ny nn now) ∧
      ((marketRowUpdated r p ny nn now).id = r.id ∧
       (marketRowUpdated r p ny nn now).slug = r.slug ∧
       (marketRowUpdated r p ny nn now).created_at = r.created_at ∧
       (marketRowUpdated r p ny nn now).updated_at = some now) ∧
      db'.markets.length = db.markets.length ∧
      (∀ q ∈ db.markets, q.slug ≠ p.slug → q ∈ db'.markets)) := by
  refine ⟨?_, ?_, ?_⟩
  · intro db p now r db' i hfind hup
    have htaken : eventIdTaken db.events p.slug p.event_id = false := by
      cases hc : eventIdTaken db.events p.slug p.event_id with
      | false => rfl
      | true =>
        rw [upsert_event, if_pos hc] at hup
        cases hup
    rw [upsert_event, if_neg (by simp [htaken])] at hup
    simp only [hfind, Except.ok.injEq, Prod.mk.injEq] at hup
    obtain ⟨hdb, hi⟩ := hup
    have hslug : ∀ q : EventRow, (q.slug == p.slug) = true →
        ((eventRowUpdated q p now).slug == p.slug) = true := fun q hq => hq
    refine ⟨hi.symm, ?_, ⟨rfl, rfl, rfl, rfl⟩, ?_, ?_⟩
    · rw [← hdb]
      rw [find?_map_ite db.events (fun q => q.slug == p.slug)
        (fun q => eventRowUpdated q p now) hslug, hfind]
      rfl
    · rw [← hdb]
      exact List.length_map _ _
    · intro q hq hne
      rw [← hdb]
      refine List.mem_map.mpr ⟨q, hq, ?_⟩
      rw [if_neg (by simpa using hne)]
  · intro db p now
    constructor
    · intro herr
      cases hc : eventIdTaken db.events p.slug p.event_id with
      | true => rfl
      | false =>
        rw [upsert_event, if_neg (by simp [hc])] at herr
        cases hfind : db.events.find? (fun r => r.slug == p.slug) with
        | some r => simp [hfind] at herr
        | none => simp [hfind] at herr
    · intro htaken
      rw [upsert_event, if_pos htaken]
  · intro db p now r ny nn db' i hny hnn hfind hup
    simp only [upsert_market, hny, hnn, hfind, Except.ok.injEq, Prod.mk.injEq] at hup
    obtain ⟨hdb, hi⟩ := hup
    have hslug : ∀ q : MarketRow, (q.slug == p.slug) = true →
        ((marketRowUpdated q p ny nn now).slug == p.slug) = true := fun q hq => hq
    refine ⟨hi.symm, ?_, ⟨rfl, rfl, rfl, rfl⟩, ?_, ?_⟩
    · rw [← hdb]
      rw [find?_map_ite db.markets (fun q => q.slug == p.slug)
        (fun q => marketRowUpdated q p ny nn now) hslug, hfind]
      rfl
    · rw [← hdb]
      exact List.length_map _ _
    · intro q hq hne
      rw [← hdb]
      refine List.mem_map.mpr ⟨q, hq, ?_⟩
      rw [if_neg (by simpa using hne)]

/-- An existing event row used by the C10 witness. -/
def c10eventRow : EventRow where
  id := 3
  event_id := some ['e']
  slug := ['s']
  title := none
  description := none
  neg_risk := false
  active := true
  closed := false
  created_at := some ['t', '0']
  updated_at := some ['t', '0']

/-- An event payload targeting the same slug. -/
def c10eventPayload : EventPayload where
  event_id := some ['f']
  slug := ['s']
  title := some ['T']
  description := none
  neg_risk := true
  active := false
  closed := true
  created_at := some ['t', '9']

/-- An existing market row used by the C10 witness. -/
def c10marketRow : MarketRow where
  id := 4
  event_id := some 3
  slug := ['m']
  title := none
  description := none
  condition_id := some ['c']
  question_id := none
  oracle := none
  collateral_token := none
  yes_token_id := some ['1']
  no_token_id := some ['2']
  enable_neg_risk := false
  status := some ['a']
  created_at := some ['t', '0']
  updated_at := some ['t', '0']

/-- A market payload targeting the same slug. -/
def c10marketPayload : MarketPayload where
  event_id := some 8
  slug := ['m']
  title := some ['M']
  description := none
  condition_id := some ['d']
  question_id := none
  oracle := none
  collateral_token := none
  yes_token_id := some ['7']
  no_token_id := some ['8']
  enable_neg_risk := true
  status := none
  created_at := some ['t', '9']

/-- The store holding the two rows above. -/
def c10db : DB := { emptyDB with events := [c10eventRow], markets := [c10marketRow] }

/-- The store after the witnessed market upsert. -/
def c10dbAfter : DB :=
  { c10db with
    markets :=
      [marketRowUpdated c10marketRow c10marketPayload (some ['7']) (some ['8']) ['t', '1']] }

/-- The store after the witnessed event upsert. -/
def c10dbAfterEvent : DB :=
  { c10db with events := [eventRowUpdated c10eventRow c10eventPayload ['t', '1']] }

theorem upsert_update_path_witness :
    (c10db.events.find? (fun q => q.slug == c10eventPayload.slug) = some c10eventRow ∧
     upsert_event c10db c10eventPayload ['t', '1'] = .ok (c10dbAfterEvent, 3) ∧
     upsert_market c10db c10marketPayload ['t', '1'] = .ok (c10dbAfter, 4)) ∧
    (3 : Nat) = c10eventRow.id ∧
    ¬ (upsert_event c10db c10eventPayload ['t', '1'] =
        .error "UNIQUE constraint failed: events.event_id") ∧
    c10dbAfter.markets.find? (fun q => q.slug == c10marketPayload.slug) =
      some (marketRowUpdated c10marketRow c10marketPayload (some ['7']) (some ['8']) ['t', '1']) :=
  ⟨⟨by decide, by decide, by decide⟩,
   (upsert_update_path.1 c10db c10eventPayload ['t', '1'] c10eventRow c10dbAfterEvent 3
     (by decide) (by decide)).1,
   fun herr => absurd
     ((upsert_update_path.2.1 c10db c10eventPayload ['t', '1']).mp herr) (by decide),
   (upsert_update_path.2.2 c10db c10marketPayload ['t', '1'] c10marketRow
     (some ['7']) (some ['8']) c10dbAfter 4 (by decide) (by decide) (by decide) (by decide)).2.1⟩

/-- A second event row whose slug differs from `c10eventRow`'s and whose
`event_id` is the empty string — the value `normalize_event_payload`
produces for any provider event without an id. -/
def c10clashRow : EventRow where
  id := 5
  event_id := some []
  slug := ['u']
  title := none
  description := none
  neg_risk := false
  active := true
  closed := false
  created_at := some ['t', '0']
  updated_at := some ['t', '0']

/-- A payload for slug `"s"` whose `event_id` is also the empty string. -/
def c10clashPayload : EventPayload where
  event_id := some []
  slug := ['s']
  title := some ['T']
  description := none
  neg_risk := false
  active := true
  closed := false
  created_at := some ['t', '9']

/-- A reachable store holding both rows. -/
def c10clashDb : DB :=
  { emptyDB with events := [c10eventRow, c10clashRow], nextEventId := 6 }

/-- Two id-less events discovered under different slugs: the `DO UPDATE`
path of the second upsert writes an `event_id` (the empty string) already
held by the other row, so the statement violates `events.event_id`
`UNIQUE` and `upsert_event` raises instead of returning the matched
row's id — refuting the claim's unconditional update-path success. -/
theorem upsert_event_conflict_cex :
    c10clashDb.events.find? (fun q => q.slug == c10clashPayload.slug) = some c10eventRow ∧
    upsert_event c10clashDb c10clashPayload ['t', '2'] =
      .error "UNIQUE constraint failed: events.event_id" :=
  ⟨by decide, by decide⟩

/-! ## Properties of token-id normalization (claim C7) -/

theorem dropWhile_eq_self_of {p : Char → Bool} :
    ∀ {l : List Char}, (∀ c ∈ l, p c = false) → l.dropWhile p = l := by
  intro l h
  cases l with
  | nil => rfl
  | cons a l => simp [List.dropWhile_cons, h a (List.mem_cons_self a l)]

theorem stripBoth_eq_self_of {p : Char → Bool} {l : List Char}
    (h : ∀ c ∈ l, p c = false) : stripBoth p l = l := by
  have hrev : ∀ c ∈ l.reverse, p c = false := fun c hc => h c (List.mem_reverse.mp hc)
  rw [stripBoth, dropWhile_eq_self_of h, stripEndChars, dropWhile_eq_self_of hrev,
    List.reverse_reverse]

theorem digitChar_clean (d : Nat) (h : d < 16) :
    isSpaceCh (Nat.digitChar d) = false ∧ (Nat.digitChar d == dq) = false ∧
    (Nat.digitChar d == sq) = false := by
  interval_cases d <;> exact ⟨rfl, rfl, rfl⟩

theorem natChars_clean (n : Nat) :
    ∀ c ∈ natChars n, isSpaceCh c = false ∧ (c == dq) = false ∧ (c == sq) = false := by
  intro c hc
  by_cases h : n = 0
  · subst h
    rw [show natChars 0 = ['0'] from rfl, List.mem_singleton] at hc
    subst hc
    exact ⟨rfl, rfl, rfl⟩
  · rw [natChars, if_neg h] at hc
    obtain ⟨d, hdmem, rfl⟩ := List.mem_map.mp hc
    rw [natDigits_eq 10 n (by norm_num)] at hdmem
    have : d < 10 := Nat.digits_lt_base (by norm_num) (List.mem_reverse.mp hdmem)
    exact digitChar_clean d (by omega)

theorem hexChars_clean (n : Nat) :
    ∀ c ∈ hexChars n, isSpaceCh c = false ∧ (c == dq) = false ∧ (c == sq) = false := by
  intro c hc
  by_cases h : n = 0
  · subst h
    rw [show hexChars 0 = ['0'] from rfl, List.mem_singleton] at hc
    subst hc
    exact ⟨rfl, rfl, rfl⟩
  · rw [hexChars, if_neg h] at hc
    obtain ⟨d, hdmem, rfl⟩ := List.mem_map.mp hc
    rw [natDigits_eq 16 n (by norm_num)] at hdmem
    exact digitChar_clean d (Nat.digits_lt_base (by norm_num) (List.mem_reverse.mp hdmem))

/-- Triple strip applied by `normalize_token_id` is the identity on digit
and hex strings. -/
theorem strip3_eq_self {l : List Char}
    (h : ∀ c ∈ l, isSpaceCh c = false ∧ (c == dq) = false ∧ (c == sq) = false) :
    stripBoth (fun c => c == sq) (stripBoth (fun c => c == dq) (stripBoth isSpaceCh l)) = l := by
  rw [stripBoth_eq_self_of (fun c hc => (h c hc).1),
    stripBoth_eq_self_of (fun c hc => (h c hc).2.1),
    stripBoth_eq_self_of (fun c hc => (h c hc).2.2)]

theorem mapVals_digVal_of_digits :
    ∀ {l : List Char}, (∀ c ∈ l, isDig c = true) → mapVals digVal? l = some (l.map digVal) := by
  intro l
  induction l with
  | nil => intro _; rfl
  | cons a l ih =>
    intro h
    have ha : isDig a = true := h a (List.mem_cons_self a l)
    have ha2 : '0' ≤ a ∧ a ≤ '9' := by simpa [isDig] using ha
    have hv : digVal? a = some (digVal a) := by simp [digVal?, digVal, ha2]
    simp [mapVals, hv, ih (fun c hc => h c (List.mem_cons_of_mem a hc))]

theorem beVal_digVal_natChars (n : Nat) : beVal 10 ((natChars n).map digVal) = n := by
  have h := parseNat?_natChars n
  rw [parseNat?, if_neg (natChars_ne_nil n),
    mapVals_digVal_of_digits (natChars_all_digit n)] at h
  exact Option.some.inj h

theorem natChars_take2_ne (n : Nat) : (natChars n).take 2 ≠ ['0', 'x'] := by
  intro hcon
  have hx : 'x' ∈ (natChars n).take 2 := by rw [hcon]; simp
  have hmem : 'x' ∈ natChars n := List.mem_of_mem_take hx
  have := natChars_all_digit n 'x' hmem
  simp [isDig] at this

/-- Normalization fixes canonical decimal strings. -/
theorem normalize_natChars (n : Nat) :
    normalize_token_id (some (natChars n)) = .ok (some (natChars n)) := by
  simp only [normalize_token_id, strip3_eq_self (natChars_clean n)]
  rw [if_neg (by simpa using natChars_ne_nil n), if_neg (natChars_take2_ne n),
    if_pos (by simpa [List.all_eq_true] using natChars_all_digit n), beVal_digVal_natChars]

/-- Normalization maps the canonical hex encoding of `n` to the canonical
decimal string of `n`. -/
theorem normalize_hexChars (n : Nat) :
    normalize_token_id (some ('0' :: 'x' :: hexChars n)) = .ok (some (natChars n)) := by
  have hclean : ∀ c ∈ '0' :: 'x' :: hexChars n,
      isSpaceCh c = false ∧ (c == dq) = false ∧ (c == sq) = false := by
    intro c hc
    rcases List.mem_cons.mp hc with rfl | hc
    · exact ⟨rfl, rfl, rfl⟩
    rcases List.mem_cons.mp hc with rfl | hc
    · exact ⟨rfl, rfl, rfl⟩
    · exact hexChars_clean n c hc
  simp only [normalize_token_id, strip3_eq_self hclean]
  rw [if_neg (by simp), if_pos (by rfl)]
  simp only [List.drop_succ_cons, List.drop_zero, parseHex?_hexChars]

/-- C7 counterexample. Normalization is not idempotent: the input
`'""'` (single quotes around two double quotes) normalizes to `""`
(two double-quote characters), which normalizes further to `None`. -/
theorem normalize_token_id_cex :
    normalize_token_id (some [sq, dq, dq, sq]) = .ok (some [dq, dq]) ∧
    normalize_token_id (some [dq, dq]) = .ok none ∧
    (Except.ok none : Except String (Option (List Char))) ≠ .ok (some [dq, dq]) := by
  exact ⟨by decide, by decide, by decide⟩

/-- C7 (amended: idempotence holds for inputs whose normalized value has no
leading or trailing whitespace or quote characters — in particular for all
hex and decimal inputs; quote-nested inputs such as `'""'` are the
exception). Hex and decimal encodings of the same integer normalize to the
same canonical decimal string. -/
theorem normalize_token_id_spec :
    (∀ s v, normalize_token_id (some s) = .ok (some v) →
      stripBoth (fun c => c == sq) (stripBoth (fun c => c == dq) (stripBoth isSpaceCh v)) = v →
      normalize_token_id (some v) = .ok (some v)) ∧
    (∀ n : Nat,
      normalize_token_id (some ('0' :: 'x' :: hexChars n)) = .ok (some (natChars n)) ∧
      normalize_token_id (some (natChars n)) = .ok (some (natChars n))) := by
  constructor
  · intro s v h hclean
    simp only [normalize_token_id] at h
    by_cases h0 : stripBoth (fun c => c == sq) (stripBoth (fun c => c == dq)
        (stripBoth isSpaceCh s)) = []
    · rw [if_pos h0] at h
      cases h
    · rw [if_neg h0] at h
      by_cases hx : (stripBoth (fun c => c == sq) (stripBoth (fun c => c == dq)
          (stripBoth isSpaceCh s))).take 2 = ['0', 'x']
      · rw [if_pos hx] at h
        cases hp : parseHex? ((stripBoth (fun c => c == sq) (stripBoth (fun c => c == dq)
            (stripBoth isSpaceCh s))).drop 2) with
        | none => rw [hp] at h; cases h
        | some m =>
          rw [hp] at h
          simp only [Except.ok.injEq, Option.some.injEq] at h
          rw [← h]
          exact normalize_natChars m
      · rw [if_neg hx] at h
        by_cases hd : (stripBoth (fun c => c == sq) (stripBoth (fun c => c == dq)
            (stripBoth isSpaceCh s))).all isDig = true
        · rw [if_pos hd] at h
          simp only [Except.ok.injEq, Option.some.injEq] at h
          rw [← h]
          exact normalize_natChars _
        · rw [if_neg hd] at h
          simp only [Except.ok.injEq, Option.some.injEq] at h
          subst h
          simp only [normalize_token_id, hclean]
          rw [if_neg h0, if_neg hx, if_neg hd]
  · intro n
    exact ⟨normalize_hexChars n, normalize_natChars n⟩

theorem normalize_token_id_spec_witness :
    (normalize_token_id (some ['0', 'x', '1', 'f']) = .ok (some ['3', '1']) ∧
     stripBoth (fun c => c == sq) (stripBoth (fun c => c == dq) (stripBoth isSpaceCh ['3', '1'])) =
       ['3', '1']) ∧
    normalize_token_id (some ['3', '1']) = .ok (some ['3', '1']) :=
  ⟨⟨by decide, by decide⟩,
   normalize_token_id_spec.1 ['0', 'x', '1', 'f'] ['3', '1'] (by decide) (by decide)⟩

/-! ## Token-id uniqueness across markets (claim C5) -/

/-- Does a market row carry this normalized token id as its YES or NO id?
This is the `WHERE yes_token_id = ? OR no_token_id = ?` predicate. -/
def hasToken (m : MarketRow) (tid : List Char) : Bool :=
  m.yes_token_id == some tid || m.no_token_id == some tid

/-- Each normalized token id occurs in at most one market row. -/
def token_unique (db : DB) : Prop :=
  ∀ tid : List Char, (db.markets.filter (fun m => hasToken m tid)).length ≤ 1

/-- Market slugs are pairwise distinct (the schema's `slug UNIQUE`). -/
def market_slugs_nodup (db : DB) : Prop :=
  (db.markets.map (fun m => m.slug)).Nodup

/-- First market payload of the C5 counterexample (slug `a`, YES token 5). -/
def c5payloadA : MarketPayload where
  event_id := none
  slug := ['a']
  title := none
  description := none
  condition_id := some ['c']
  question_id := none
  oracle := none
  collateral_token := none
  yes_token_id := some ['5']
  no_token_id := none
  enable_neg_risk := false
  status := none
  created_at := none

/-- Second market payload of the C5 counterexample (slug `b`, same YES
token 5). -/
def c5payloadB : MarketPayload where
  event_id := none
  slug := ['b']
  title := none
  description := none
  condition_id := some ['c']
  question_id := none
  oracle := none
  collateral_token := none
  yes_token_id := some ['5']
  no_token_id := none
  enable_neg_risk := false
  status := none
  created_at := none

/-- C5 counterexample. Nothing in the schema or the upsert path enforces
token-id uniqueness: from an empty store, two market upserts with distinct
slugs but the same YES token id reach a state in which token id `5`
matches two market rows. -/
theorem market_token_unique_cex :
    (Except.bind (upsert_market emptyDB c5payloadA ['t'])
        (fun pr => upsert_market pr.1 c5payloadB ['t'])).toOption.map
      (fun pr => (pr.1.markets.filter (fun m => hasToken m ['5'])).length) = some 2 ∧
    ¬ (2 : Nat) ≤ 1 :=
  ⟨by decide, by decide⟩

theorem filter_len_le_one_unique {α : Type} {l : List α} {p : α → Bool}
    (h : (l.filter p).length ≤ 1) {a b : α} (ha : a ∈ l) (hb : b ∈ l)
    (hpa : p a = true) (hpb : p b = true) : a = b := by
  have ha2 : a ∈ l.filter p := List.mem_filter.mpr ⟨ha, hpa⟩
  have hb2 : b ∈ l.filter p := List.mem_filter.mpr ⟨hb, hpb⟩
  cases hf : l.filter p with
  | nil => rw [hf] at ha2; cases ha2
  | cons x xs =>
    rw [hf] at ha2 hb2 h
    have hxs : xs = [] := by
      cases xs with
      | nil => rfl
      | cons y ys => simp at h
    subst hxs
    rw [List.mem_singleton] at ha2 hb2
    rw [ha2, hb2]

/-- C5 (amended: the token-id uniqueness invariant is not enforced by the
store — see the counterexample — but it is preserved by `upsert_market`
whenever the payload's normalized token ids are not already carried by a
row with a different slug; under the invariant every token id matches at
most one row, so `fetch_market_by_token_id`'s first-row answer is the only
match). -/
theorem token_unique_preserved (db : DB) (p : MarketPayload) (now : List Char)
    (db' : DB) (i : Nat) (ny nn : Option (List Char))
    (hu : token_unique db)
    (hnd : market_slugs_nodup db)
    (hny : normalize_token_id p.yes_token_id = .ok ny)
    (hnn : normalize_token_id p.no_token_id = .ok nn)
    (hfresh : ∀ m ∈ db.markets, m.slug ≠ p.slug → ∀ tid : List Char,
      ny = some tid ∨ nn = some tid → hasToken m tid = false)
    (hup : upsert_market db p now = .ok (db', i)) :
    token_unique db' ∧
    (∀ tid : List Char, ∀ m1 m2, m1 ∈ db'.markets → m2 ∈ db'.markets →
      hasToken m1 tid = true → hasToken m2 tid = true → m1 = m2) := by
  have hu2 : ∀ tid : List Char, List.countP (fun m => hasToken m tid) db.markets ≤ 1 := by
    intro t
    rw [List.countP_eq_length_filter]
    exact hu t
  have hslugcount : ∀ (l : List MarketRow) (s : List Char),
      (l.map (fun m => m.slug)).Nodup → List.countP (fun q => q.slug == s) l ≤ 1 := by
    intro l
    induction l with
    | nil => intro s _; simp
    | cons a l ih =>
      intro s hn
      rw [List.map_cons, List.nodup_cons] at hn
      obtain ⟨hna, hnd2⟩ := hn
      rw [List.countP_cons]
      by_cases hs : (a.slug == s) = true
      · have ha : a.slug = s := by simpa using hs
        have hzero : l.countP (fun q => q.slug == s) = 0 := by
          rw [List.countP_eq_zero]
          intro q hq hqs
          have hqe : q.slug = s := by simpa using hqs
          exact hna (List.mem_map.mpr ⟨q, hq, by rw [hqe, ha]⟩)
        rw [hzero, hs]
        simp
      · rw [if_neg hs, Nat.add_zero]
        exact ih s hnd2
  have main : token_unique db' := by
    intro tid
    rw [← List.countP_eq_length_filter]
    have hone : ∀ x : MarketRow, List.countP (fun m => hasToken m tid) [x] ≤ 1 := by
      intro x
      rw [List.countP_cons]
      simp only [List.countP_nil, Nat.zero_add]
      split <;> simp
    by_cases htid : ny = some tid ∨ nn = some tid
    · -- the payload itself carries `tid`
      have hupd : ∀ q : MarketRow, hasToken (marketRowUpdated q p ny nn now) tid = true := by
        intro q
        rcases htid with h | h
        · simp [hasToken, marketRowUpdated, h]
        · simp [hasToken, marketRowUpdated, h]
      cases hfind : db.markets.find? (fun r => r.slug == p.slug) with
      | some r =>
        simp only [upsert_market, hny, hnn, hfind, Except.ok.injEq, Prod.mk.injEq] at hup
        obtain ⟨hdb, _⟩ := hup
        rw [← hdb]
        dsimp only
        rw [List.countP_map]
        have hcong : ∀ q ∈ db.markets,
            ((fun m => hasToken m tid) ∘ (fun q =>
              if q.slug == p.slug then marketRowUpdated q p ny nn now else q)) q = true ↔
            (q.slug == p.slug) = true := by
          intro q hq
          by_cases hs : (q.slug == p.slug) = true
          · rw [Function.comp_apply, if_pos hs, hupd q]
            simp [hs]
          · have hne : q.slug ≠ p.slug := by simpa using hs
            rw [Function.comp_apply, if_neg hs, hfresh q hq hne tid htid]
            simp [hs]
        rw [List.countP_congr hcong]
        exact hslugcount db.markets p.slug hnd
      | none =>
        simp only [upsert_market, hny, hnn, hfind, Except.ok.injEq, Prod.mk.injEq] at hup
        obtain ⟨hdb, _⟩ := hup
        rw [← hdb]
        dsimp only
        rw [List.countP_append]
        have hold : List.countP (fun m => hasToken m tid) db.markets = 0 := by
          rw [List.countP_eq_zero]
          intro q hq
          have hne : q.slug ≠ p.slug := by
            have := List.find?_eq_none.mp hfind q hq
            simpa using this
          simp [hfresh q hq hne tid htid]
        rw [hold, Nat.zero_add]
        exact hone _
    · -- the payload does not carry `tid`: counts cannot grow
      push_neg at htid
      obtain ⟨hy, hn⟩ := htid
      have hupd : ∀ q : MarketRow, hasToken (marketRowUpdated q p ny nn now) tid = false := by
        intro q
        simp only [hasToken, marketRowUpdated, Bool.or_eq_false_iff]
        exact ⟨beq_eq_false_iff_ne.mpr hy, beq_eq_false_iff_ne.mpr hn⟩
      have hrow : ∀ x : MarketRow, x.yes_token_id = ny → x.no_token_id = nn →
          List.countP (fun m => hasToken m tid) [x] = 0 := by
        intro x hxy hxn
        rw [List.countP_cons]
        simp only [List.countP_nil, Nat.zero_add]
        rw [if_neg]
        simp only [hasToken, hxy, hxn, Bool.or_eq_true, not_or]
        exact ⟨by simpa using beq_eq_false_iff_ne.mpr hy, by simpa using beq_eq_false_iff_ne.mpr hn⟩
      cases hfind : db.markets.find? (fun r => r.slug == p.slug) with
      | some r =>
        simp only [upsert_market, hny, hnn, hfind, Except.ok.injEq, Prod.mk.injEq] at hup
        obtain ⟨hdb, _⟩ := hup
        rw [← hdb]
        dsimp only
        rw [List.countP_map]
        refine le_trans (List.countP_mono_left ?_) (hu2 tid)
        intro q _ hq
        by_cases hs : (q.slug == p.slug) = true
        · rw [Function.comp_apply, if_pos hs, hupd q] at hq
          cases hq
        · rwa [Function.comp_apply, if_neg hs] at hq
      | none =>
        simp only [upsert_market, hny, hnn, hfind, Except.ok.injEq, Prod.mk.injEq] at hup
        obtain ⟨hdb, _⟩ := hup
        rw [← hdb]
        dsimp only
        rw [List.countP_append, hrow _ rfl rfl, Nat.add_zero]
        exact hu2 tid
  refine ⟨main, ?_⟩
  intro tid m1 m2 h1 h2 hp1 hp2
  exact filter_len_le_one_unique (main tid) h1 h2 hp1 hp2

/-- The store reached by the witnessed upsert. -/
def c5dbAfter : DB :=
  { emptyDB with
    markets := [{
      id := 1
      event_id := none
      slug := ['a']
      title := none
      description := none
      condition_id := some ['c']
      question_id := none
      oracle := none
      collateral_token := none
      yes_token_id := some ['5']
      no_token_id := none
      enable_neg_risk := false
      status := some ("unknown".toList)
      created_at := none
      updated_at := some ['t'] }]
    nextMarketId := 2 }

theorem token_unique_preserved_witness :
    (normalize_token_id c5payloadA.yes_token_id = .ok (some ['5']) ∧
     normalize_token_id c5payloadA.no_token_id = .ok none ∧
     upsert_market emptyDB c5payloadA ['t'] = .ok (c5dbAfter, 1)) ∧
    token_unique c5dbAfter :=
  ⟨⟨by decide, by decide, by decide⟩,
   (token_unique_preserved emptyDB c5payloadA ['t'] c5dbAfter 1 (some ['5']) none
     (fun tid => by simp [emptyDB])
     (by simp [market_slugs_nodup, emptyDB])
     (by decide) (by decide)
     (fun m hm => by simp [emptyDB] at hm)
     (by decide)).1⟩

/-! ## Properties of the indexing run (claims C1, C8, C9) -/

/-- Number of discovery operations in a trace. -/
def countDiscover (ops : List Op) : Nat := ops.countP (fun o => o == Op.discover)

theorem ensure_cases (env : RunEnv) (db : DB) (tid : List Char)
    (slug : Option (List Char)) (att : Bool) :
    ((ensure_market_cached env db tid slug att).1 = [] ∧
      ∀ m att1 db1, (ensure_market_cached env db tid slug att).2 = .ok (m, att1, db1) →
        att1 = att) ∨
    ((ensure_market_cached env db tid slug att).1 = [Op.discover] ∧ att = false ∧
      ∀ m att1 db1, (ensure_market_cached env db tid slug att).2 = .ok (m, att1, db1) →
        att1 = true) := by
  cases hf : fetch_market_by_token_id db (some tid) with
  | error e =>
    left
    simp only [ensure_market_cached, hf]
    exact ⟨by trivial, fun m att1 db1 hok => by cases hok⟩
  | ok mo =>
    cases mo with
    | some m0 =>
      left
      simp only [ensure_market_cached, hf]
      refine ⟨by trivial, fun m att1 db1 hok => ?_⟩
      simp only [Except.ok.injEq, Prod.mk.injEq] at hok
      exact hok.2.1.symm
    | none =>
      cases att with
      | true =>
        left
        simp only [ensure_market_cached, hf]
        rw [if_neg (by simp)]
        refine ⟨by trivial, fun m att1 db1 hok => ?_⟩
        simp only [Except.ok.injEq, Prod.mk.injEq] at hok
        exact hok.2.1.symm
      | false =>
        by_cases hs : slugTruthy slug = true
        · right
          cases hd : env.discover db with
          | error e =>
            simp only [ensure_market_cached, hf]
            rw [if_pos (by simp [hs])]
            simp only [hd]
            exact ⟨by trivial, by trivial, fun m att1 db1 hok => by cases hok⟩
          | ok db1 =>
            cases hf2 : fetch_market_by_token_id db1 (some tid) with
            | error e =>
              simp only [ensure_market_cached, hf]
              rw [if_pos (by simp [hs])]
              simp only [hd, hf2]
              exact ⟨by trivial, by trivial, fun m att1 db2 hok => by cases hok⟩
            | ok m2 =>
              simp only [ensure_market_cached, hf]
              rw [if_pos (by simp [hs])]
              simp only [hd, hf2]
              refine ⟨by trivial, by trivial, fun m att1 db2 hok => ?_⟩
              simp only [Except.ok.injEq, Prod.mk.injEq] at hok
              exact hok.2.1.symm
        · left
          simp only [ensure_market_cached, hf]
          rw [if_neg (by simp [hs])]
          refine ⟨by trivial, fun m att1 db1 hok => ?_⟩
          simp only [Except.ok.injEq, Prod.mk.injEq] at hok
          exact hok.2.1.symm

theorem processLog_resolved (env : RunEnv) (slug : Option (List Char))
    (st : LoopState) (log : RawLog) (t : Trade) (tid : List Char) (ops : List Op)
    (r : Except String (Option MarketRow × Bool × DB))
    (hdec : decode_order_filled_log log = .ok t)
    (hnorm : normalize_token_id (some t.token_id) = .ok (some tid))
    (hE : ensure_market_cached env st.db tid slug st.attempted = (ops, r)) :
    (processLog env slug st log).1 = ops ∧
    ∀ st1, (processLog env slug st log).2 = .ok st1 →
      ∃ m att1 db1, r = .ok (m, att1, db1) ∧ st1.attempted = att1 := by
  cases r with
  | error e =>
    simp only [processLog, hdec, hnorm, hE]
    exact ⟨by trivial, fun st1 h1 => by cases h1⟩
  | ok trip =>
    obtain ⟨mo, att1, db1⟩ := trip
    cases mo with
    | none =>
      simp only [processLog, hdec, hnorm, hE]
      exact ⟨by trivial, fun st1 h1 => by cases h1; exact ⟨none, att1, db1, rfl, rfl⟩⟩
    | some m =>
      cases hys : normalize_token_id m.yes_token_id with
      | error e =>
        simp only [processLog, hdec, hnorm, hE, hys]
        exact ⟨by trivial, fun st1 h1 => by cases h1⟩
      | ok ys =>
        cases hns : normalize_token_id m.no_token_id with
        | error e =>
          simp only [processLog, hdec, hnorm, hE, hys, hns]
          exact ⟨by trivial, fun st1 h1 => by cases h1⟩
        | ok ns =>
          simp only [processLog, hdec, hnorm, hE, hys, hns]
          exact ⟨by trivial, fun st1 h1 => by cases h1; exact ⟨some m, att1, db1, rfl, rfl⟩⟩

theorem processLog_cases (env : RunEnv) (slug : Option (List Char))
    (st : LoopState) (log : RawLog) :
    ((processLog env slug st log).1 = [] ∧
      ∀ st1, (processLog env slug st log).2 = .ok st1 → st1.attempted = st.attempted) ∨
    ((processLog env slug st log).1 = [Op.discover] ∧ st.attempted = false ∧
      ∀ st1, (processLog env slug st log).2 = .ok st1 → st1.attempted = true) := by
  cases hdec : decode_order_filled_log log with
  | error e =>
    left
    simp only [processLog, hdec]
    exact ⟨by trivial, fun st1 h1 => by cases h1⟩
  | ok t =>
    cases hnorm : normalize_token_id (some t.token_id) with
    | error e =>
      left
      simp only [processLog, hdec, hnorm]
      exact ⟨by trivial, fun st1 h1 => by cases h1⟩
    | ok tido =>
      cases tido with
      | none =>
        left
        simp only [processLog, hdec, hnorm]
        exact ⟨by trivial, fun st1 h1 => by cases h1; rfl⟩
      | some tid =>
        rcases ensure_cases env st.db tid slug st.attempted with
          ⟨hops, hatt⟩ | ⟨hops, hattF, hatt⟩
        · left
          cases hE : ensure_market_cached env st.db tid slug st.attempted with
          | mk ops r =>
            rw [hE] at hops hatt
            subst hops
            obtain ⟨hPops, hPatt⟩ :=
              processLog_resolved env slug st log t tid [] r hdec hnorm hE
            refine ⟨hPops, fun st1 h1 => ?_⟩
            obtain ⟨m, att1, db1, hr, hst⟩ := hPatt st1 h1
            rw [hst]
            exact hatt m att1 db1 (by rw [hr])
        · right
          cases hE : ensure_market_cached env st.db tid slug st.attempted with
          | mk ops r =>
            rw [hE] at hops hatt
            subst hops
            obtain ⟨hPops, hPatt⟩ :=
              processLog_resolved env slug st log t tid [Op.discover] r hdec hnorm hE
            refine ⟨hPops, hattF, fun st1 h1 => ?_⟩
            obtain ⟨m, att1, db1, hr, hst⟩ := hPatt st1 h1
            rw [hst]
            exact hatt m att1 db1 (by rw [hr])

theorem foldLogs_discover_bound :
    ∀ (logs : List RawLog) (env : RunEnv) (slug : Option (List Char)) (st : LoopState),
      countDiscover (foldLogs env slug st logs).1 ≤ (if st.attempted then 0 else 1) := by
  intro logs
  induction logs with
  | nil =>
    intro env slug st
    simp only [foldLogs, countDiscover, List.countP_nil]
    split <;> simp
  | cons log rest ih =>
    intro env slug st
    cases hP : processLog env slug st log with
    | mk ops r =>
      rcases processLog_cases env slug st log with ⟨hops, hatt⟩ | ⟨hops, hattF, hatt⟩ <;>
        rw [hP] at hops hatt <;> subst hops
      · cases r with
        | error e =>
          simp [foldLogs, hP, countDiscover]
        | ok st1 =>
          have h1 : st1.attempted = st.attempted := hatt st1 rfl
          have hrec := ih env slug st1
          rw [h1] at hrec
          simp only [foldLogs, hP, countDiscover, List.nil_append] at hrec ⊢
          exact hrec
      · rw [hattF]
        cases r with
        | error e =>
          simp [foldLogs, hP, countDiscover, List.countP_cons, beq_self_eq_true]
        | ok st1 =>
          have h1 : st1.attempted = true := hatt st1 rfl
          have hrec := ih env slug st1
          rw [h1, if_pos rfl] at hrec
          simp only [foldLogs, hP, countDiscover, List.countP_append, List.countP_cons,
            List.countP_nil, beq_self_eq_true, if_true, Bool.false_eq_true, if_false] at hrec ⊢
          omega


/-- C8. Within one indexing run (whose decode loop starts with
`market_discovery_attempted = False`), cache-miss-triggered metadata
discovery runs at most once no matter how many unresolved token ids occur;
and a decoded trade whose token id still resolves to no market after the
(possible) single discovery pass is skipped: the loop state keeps `db` and
the `attempted` flag from the resolution step but its `to_insert`
accumulator is unchanged. -/
theorem run_discovery_once :
    (∀ (env : RunEnv) (eventSlug : Option (List Char)) (db : DB) (logs : List RawLog),
      countDiscover (foldLogs env eventSlug ⟨db, false, []⟩ logs).1 ≤ 1) ∧
    (∀ (env : RunEnv) (eventSlug : Option (List Char)) (st : LoopState) (log : RawLog)
       (t : Trade) (tid : List Char) (ops : List Op) (att1 : Bool) (db1 : DB),
      decode_order_filled_log log = .ok t →
      normalize_token_id (some t.token_id) = .ok (some tid) →
      ensure_market_cached env st.db tid eventSlug st.attempted = (ops, .ok (none, att1, db1)) →
      processLog env eventSlug st log = (ops, .ok ⟨db1, att1, st.acc⟩)) := by
  constructor
  · intro env eventSlug db logs
    have := foldLogs_discover_bound logs env eventSlug ⟨db, false, []⟩
    simpa using this
  · intro env eventSlug st log t tid ops att1 db1 hdec hnorm hens
    simp [processLog, hdec, hnorm, hens]

/-- A trivial environment: no logs, identity discovery, empty timestamps. -/
def env0 : RunEnv where
  fetchLogs := .ok []
  discover := fun d => .ok d
  blockTs := fun _ => []

set_option maxRecDepth 100000 in
/-- The decoded trade of `exampleLog`. -/
def c8trade : Trade :=
  (decode_order_filled_log exampleLog).toOption.get (by decide)

set_option maxRecDepth 100000 in
theorem run_discovery_once_witness :
    (decode_order_filled_log exampleLog = .ok c8trade ∧
     normalize_token_id (some c8trade.token_id) = .ok (some ['5', '5', '5']) ∧
     ensure_market_cached env0 emptyDB ['5', '5', '5'] none false =
       ([], .ok (none, false, emptyDB))) ∧
    processLog env0 none ⟨emptyDB, false, []⟩ exampleLog = ([], .ok ⟨emptyDB, false, []⟩) :=
  ⟨⟨by decide, by decide, by decide⟩,
   run_discovery_once.2 env0 none ⟨emptyDB, false, []⟩ exampleLog c8trade ['5', '5', '5']
     [] false emptyDB (by decide) (by decide) (by decide)⟩

theorem processLog_ops_discover (env : RunEnv) (slug : Option (List Char))
    (st : LoopState) (log : RawLog) :
    ∀ o ∈ (processLog env slug st log).1, o = Op.discover := by
  rcases processLog_cases env slug st log with ⟨hops, _⟩ | ⟨hops, _, _⟩ <;> rw [hops]
  · intro o ho; cases ho
  · intro o ho
    rcases List.mem_singleton.mp ho with rfl
    rfl

theorem foldLogs_ops_discover :
    ∀ (logs : List RawLog) (env : RunEnv) (slug : Option (List Char)) (st : LoopState),
      ∀ o ∈ (foldLogs env slug st logs).1, o = Op.discover := by
  intro logs
  induction logs with
  | nil => intro env slug st o ho; cases ho
  | cons log rest ih =>
    intro env slug st o ho
    cases hP : processLog env slug st log with
    | mk ops r =>
      have hops := processLog_ops_discover env slug st log
      rw [hP] at hops
      cases r with
      | error e =>
        rw [foldLogs, hP] at ho
        exact hops o ho
      | ok st1 =>
        rw [foldLogs, hP] at ho
        simp only [List.mem_append] at ho
        rcases ho with ho | ho
        · exact hops o ho
        · exact ih env slug st1 o ho

/-- All-discover traces never contain a cursor write. -/
theorem noUpdate_of_all_discover {ops : List Op} (h : ∀ o ∈ ops, o = Op.discover) :
    ∀ k b, Op.updateSync k b ∉ ops := by
  intro k b hmem
  have := h _ hmem
  simp at this

/-- The C9 trace goal for a failing run whose trace is discovery-only. -/
theorem trace_goal_error {ops : List Op} {toB : Nat} {e : String}
    (hall : ∀ o ∈ ops, o = Op.discover) :
    ((∃ d n, (Except.error e : Except String (DB × Nat)) = Except.ok (d, n)) →
      ∃ pre cnt, ops = pre ++ [Op.insert cnt, Op.updateSync syncKey toB] ∧
        ∀ o ∈ pre, o = Op.discover) ∧
    ((∃ e2, (Except.error e : Except String (DB × Nat)) = Except.error e2) →
      ∀ k b, Op.updateSync k b ∉ ops) := by
  constructor
  · rintro ⟨d, n, hdn⟩
    exact absurd hdn (by simp)
  · intro _
    exact noUpdate_of_all_discover hall

/-- C9. In every modelled indexing run: on success the operation trace
ends with the batch insert followed immediately by exactly one sync-cursor
write, with key `trade_sync` and value `to_block`, every earlier operation
being a discovery (so the cursor is written once, after the insert); on
failure the cursor is never written at all. -/
theorem run_indexer_sync_trace (env : RunEnv) (db : DB) (addrs : List (List Char))
    (toB : Nat) (slug : Option (List Char)) (ops : List Op) (r : Except String (DB × Nat))
    (h : run_indexer env db addrs toB slug = (ops, r)) :
    ((∃ d n, r = .ok (d, n)) →
      ∃ pre cnt, ops = pre ++ [Op.insert cnt, Op.updateSync syncKey toB] ∧
        ∀ o ∈ pre, o = Op.discover) ∧
    ((∃ e, r = .error e) → ∀ k b, Op.updateSync k b ∉ ops) := by
  cases hs : slugTruthy slug with
  | false =>
    simp only [run_indexer, hs, Bool.false_eq_true, if_false] at h
    by_cases haddr : addrs = []
    · rw [if_pos haddr] at h
      obtain ⟨rfl, rfl⟩ := (Prod.mk.injEq _ _ _ _).mp h.symm
      exact trace_goal_error (fun o ho => by cases ho)
    · rw [if_neg haddr] at h
      cases hfetch : env.fetchLogs with
      | error e =>
        simp only [hfetch] at h
        obtain ⟨rfl, rfl⟩ := (Prod.mk.injEq _ _ _ _).mp h.symm
        exact trace_goal_error (fun o ho => by cases ho)
      | ok logs =>
        simp only [hfetch] at h
        cases hfold : foldLogs env slug ⟨db, false, []⟩ logs with
        | mk ops1 rf =>
          have hdisc := foldLogs_ops_discover logs env slug ⟨db, false, []⟩
          rw [hfold] at hdisc
          simp only [hfold] at h
          cases rf with
          | error e =>
            obtain ⟨rfl, rfl⟩ := (Prod.mk.injEq _ _ _ _).mp h.symm
            exact trace_goal_error (fun o ho => hdisc o (by simpa using ho))
          | ok st =>
            cases hins : insert_trades st.db st.acc with
            | error e =>
              simp only [hins] at h
              obtain ⟨rfl, rfl⟩ := (Prod.mk.injEq _ _ _ _).mp h.symm
              exact trace_goal_error (fun o ho => hdisc o (by simpa using ho))
            | ok pr =>
              obtain ⟨db1, inserted⟩ := pr
              simp only [hins] at h
              obtain ⟨rfl, rfl⟩ := (Prod.mk.injEq _ _ _ _).mp h.symm
              constructor
              · intro _
                refine ⟨ops1, inserted, by simp, fun o ho => hdisc o (by simpa using ho)⟩
              · rintro ⟨e, he⟩
                cases he
  | true =>
    simp only [run_indexer, hs, eq_self_iff_true, if_true] at h
    cases hd : env.discover db with
    | error e =>
      simp only [hd] at h
      obtain ⟨rfl, rfl⟩ := (Prod.mk.injEq _ _ _ _).mp h.symm
      exact trace_goal_error (fun o ho => by rcases List.mem_singleton.mp ho with rfl; rfl)
    | ok db0 =>
      simp only [hd] at h
      by_cases haddr : addrs = []
      · rw [if_pos haddr] at h
        obtain ⟨rfl, rfl⟩ := (Prod.mk.injEq _ _ _ _).mp h.symm
        exact trace_goal_error (fun o ho => by rcases List.mem_singleton.mp ho with rfl; rfl)
      · rw [if_neg haddr] at h
        cases hfetch : env.fetchLogs with
        | error e =>
          simp only [hfetch] at h
          obtain ⟨rfl, rfl⟩ := (Prod.mk.injEq _ _ _ _).mp h.symm
          exact trace_goal_error (fun o ho => by rcases List.mem_singleton.mp ho with rfl; rfl)
        | ok logs =>
          simp only [hfetch] at h
          cases hfold : foldLogs env slug ⟨db0, false, []⟩ logs with
          | mk ops1 rf =>
            have hdisc := foldLogs_ops_discover logs env slug ⟨db0, false, []⟩
            rw [hfold] at hdisc
            simp only [hfold] at h
            have hall : ∀ o ∈ Op.discover :: ops1, o = Op.discover := by
              intro o ho
              rcases List.mem_cons.mp ho with rfl | ho
              · rfl
              · exact hdisc o ho
            cases rf with
            | error e =>
              obtain ⟨rfl, rfl⟩ := (Prod.mk.injEq _ _ _ _).mp h.symm
              exact trace_goal_error (fun o ho => hall o (by simpa using ho))
            | ok st =>
              cases hins : insert_trades st.db st.acc with
              | error e =>
                simp only [hins] at h
                obtain ⟨rfl, rfl⟩ := (Prod.mk.injEq _ _ _ _).mp h.symm
                exact trace_goal_error (fun o ho => hall o (by simpa using ho))
              | ok pr =>
                obtain ⟨db1, inserted⟩ := pr
                simp only [hins] at h
                obtain ⟨rfl, rfl⟩ := (Prod.mk.injEq _ _ _ _).mp h.symm
                constructor
                · intro _
                  refine ⟨Op.discover :: ops1, inserted, by simp, fun o ho => hall o (by simpa using ho)⟩
                · rintro ⟨e, he⟩
                  cases he

/-- The store after the witnessed empty run. -/
def c9db : DB := { emptyDB with sync := [(syncKey, 5)] }

set_option maxRecDepth 400000 in
theorem run_indexer_sync_trace_witness :
    run_indexer env0 emptyDB [['e']] 5 none =
      ([Op.insert 0, Op.updateSync syncKey 5], .ok (c9db, 0)) ∧
    (∃ pre cnt, [Op.insert 0, Op.updateSync syncKey 5] =
        pre ++ [Op.insert cnt, Op.updateSync syncKey 5] ∧ ∀ o ∈ pre, o = Op.discover) :=
  ⟨by decide,
   (run_indexer_sync_trace env0 emptyDB [['e']] 5 none
      [Op.insert 0, Op.updateSync syncKey 5] (.ok (c9db, 0)) (by decide)).1 ⟨c9db, 0, rfl⟩⟩

/-- A raw log whose data payload (`0xab`) is not a multiple of 32 bytes. -/
def badLog : RawLog where
  topics := ['0' :: 'x' :: hexPad64 0, '0' :: 'x' :: hexPad64 1, '0' :: 'x' :: hexPad64 2]
  data := ['0', 'x', 'a', 'b']
  transactionHash := ['0', 'x', '1']
  logIndex := 0
  blockNumber := 1
  blockHash := ['0', 'x']
  address := ['0', 'x']

/-- The environment of the C1 failing input: the fetched logs hold one
malformed log followed by one perfectly well-formed log. -/
def c1env : RunEnv where
  fetchLogs := .ok [badLog, exampleLog]
  discover := fun d => .ok d
  blockTs := fun _ => []

set_option maxRecDepth 400000 in
/-- C1 (evaluation at the failing input). `run_indexer` calls
`decode_order_filled_log` with no exception handler, so one log whose data
length is not a multiple of 32 bytes aborts the entire run with the
decoder's `ValueError`: the following well-formed, decodable log is never
persisted, no insert happens and no cursor is written — the run does not
skip the malformed log and continue as the specification requires. -/
theorem malformed_log_aborts_run :
    run_indexer c1env emptyDB [['e']] 9 none = ([], .error "unexpected log data length") ∧
    decode_order_filled_log badLog = .error "unexpected log data length" ∧
    (decode_order_filled_log exampleLog).toOption.isSome = true := by
  refine ⟨?_, by decide, by decide⟩
  decide

/-! ## Decimal arithmetic lemmas (towards claims C3 and C6) -/

theorem numDigits_pos (n : Nat) : 1 ≤ numDigits n := by
  by_cases h : n = 0
  · simp [numDigits, h]
  · rw [numDigits, if_neg h, natDigits_eq 10 n (by norm_num),
      Nat.digits_len 10 n (by norm_num) h]
    omega

theorem lt_pow_numDigits (n : Nat) : n < 10 ^ numDigits n := by
  by_cases h : n = 0
  · simp [numDigits, h]
  · rw [numDigits, if_neg h, natDigits_eq 10 n (by norm_num),
      Nat.digits_len 10 n (by norm_num) h]
    exact Nat.lt_pow_succ_log_self (by norm_num) n

theorem pow_numDigits_pred_le (n : Nat) (h : n ≠ 0) : 10 ^ (numDigits n - 1) ≤ n := by
  rw [numDigits, if_neg h, natDigits_eq 10 n (by norm_num),
    Nat.digits_len 10 n (by norm_num) h]
  simpa using Nat.pow_log_le_self 10 h

theorem numDigits_le_iff (n k : Nat) (hk : 0 < k) : numDigits n ≤ k ↔ n < 10 ^ k := by
  by_cases h : n = 0
  · subst h
    have hp : (0:ℕ) < 10 ^ k := Nat.pos_pow_of_pos k (by norm_num)
    simp only [numDigits, if_pos rfl]
    exact ⟨fun _ => hp, fun _ => hk⟩
  · rw [numDigits, if_neg h, natDigits_eq 10 n (by norm_num),
      Nat.digits_len 10 n (by norm_num) h]
    rw [Nat.lt_pow_iff_log_lt (by norm_num) h]
    omega

theorem roundHalfEven_of_exact (q m : Nat) (hm : 0 < m) (hr : q % m = 0) :
    roundHalfEven q m = q / m := by
  rw [roundHalfEven]
  simp only [hr, Nat.mul_zero]
  rw [if_neg]
  push_neg
  exact ⟨by omega, fun h => absurd h.symm (by omega)⟩

theorem roundHalfEven_le (q m : Nat) : roundHalfEven q m ≤ q / m + 1 := by
  rw [roundHalfEven]
  split <;> omega

theorem fixPrec_c_lt (d : Dec) : (fixPrec d).c < 10 ^ PREC := by
  rw [fixPrec]
  by_cases h : numDigits d.c ≤ PREC
  · rw [if_pos h]
    exact (numDigits_le_iff d.c PREC (by norm_num [PREC])).mp h
  · rw [if_neg h]
    have hk : 1 ≤ numDigits d.c - PREC := by omega
    have hql : roundHalfEven d.c (10 ^ (numDigits d.c - PREC)) ≤ 10 ^ PREC := by
      refine le_trans (roundHalfEven_le _ _) ?_
      have hdc : d.c < 10 ^ (PREC + (numDigits d.c - PREC)) := by
        have := lt_pow_numDigits d.c
        have heq : PREC + (numDigits d.c - PREC) = numDigits d.c := by omega
        rw [heq]
        exact this
      have : d.c / 10 ^ (numDigits d.c - PREC) < 10 ^ PREC := by
        rw [Nat.div_lt_iff_lt_mul (Nat.pos_pow_of_pos _ (by norm_num))]
        rw [pow_add] at hdc
        exact hdc
      omega
    by_cases h2 : numDigits (roundHalfEven d.c (10 ^ (numDigits d.c - PREC))) > PREC
    · rw [if_pos h2]
      have hq10 : roundHalfEven d.c (10 ^ (numDigits d.c - PREC)) / 10 ≤ 10 ^ PREC / 10 :=
        Nat.div_le_div_right hql
      have : (10:ℕ) ^ PREC / 10 < 10 ^ PREC := by
        norm_num [PREC]
      show roundHalfEven d.c (10 ^ (numDigits d.c - PREC)) / 10 < 10 ^ PREC
      omega
    · rw [if_neg h2]
      push_neg at h2
      exact (numDigits_le_iff _ PREC (by norm_num [PREC])).mp h2

/-- Casting an equation `A = B * 10 ^ t` (`t ≥ 0`) from `ℚ` down to `ℕ`. -/
theorem nat_eq_of_cast_eq_mul_zpow {A B : Nat} {t : Int} (ht : 0 ≤ t)
    (h : (A : ℚ) = (B : ℚ) * (10:ℚ) ^ t) : A = B * 10 ^ t.toNat := by
  have h10 : (10:ℚ) ^ t = ((10 ^ t.toNat : ℕ) : ℚ) := by
    rw [← Int.toNat_of_nonneg ht, zpow_natCast]
    push_cast
    rw [Int.toNat_of_nonneg ht]
  rw [h10] at h
  exact_mod_cast h

theorem fixPrec_exact (x : Dec) (c : Nat) (e : Int) (hc : c < 10 ^ PREC)
    (hv : decVal x = (c : ℚ) * (10:ℚ) ^ e) : decVal (fixPrec x) = decVal x := by
  rw [fixPrec]
  by_cases h : numDigits x.c ≤ PREC
  · rw [if_pos h]
  · rw [if_neg h]
    push_neg at h
    have hxc : 10 ^ PREC ≤ x.c := by
      by_contra hcon
      push_neg at hcon
      exact absurd ((numDigits_le_iff x.c PREC (by norm_num [PREC])).mpr hcon) (by omega)
    have hc0 : c ≠ 0 := by
      intro hcz
      subst hcz
      rw [decVal] at hv
      simp only [Nat.cast_zero, zero_mul] at hv
      have : (x.c : ℚ) = 0 := by
        have h10 : ((10:ℚ) ^ x.e) ≠ 0 := zpow_ne_zero _ (by norm_num)
        exact (mul_eq_zero.mp hv).resolve_right h10
      have : x.c = 0 := by exact_mod_cast this
      omega
    -- `x.c = c * 10 ^ t` for `t = e - x.e ≥ k`
    have hxq : (x.c : ℚ) = (c : ℚ) * (10:ℚ) ^ (e - x.e) := by
      rw [decVal] at hv
      have h10 : ((10:ℚ) ^ x.e) ≠ 0 := zpow_ne_zero _ (by norm_num)
      rw [zpow_sub₀ (by norm_num : (10:ℚ) ≠ 0), ← mul_div_assoc, eq_div_iff h10]
      exact hv
    have htpos : 0 ≤ e - x.e := by
      by_contra hcon
      push_neg at hcon
      have h1 : (10:ℚ) ^ (e - x.e) < 1 :=
        zpow_lt_one_of_neg₀ (by norm_num : (1:ℚ) < 10) (by omega : e - x.e < 0)
      have h2 : (x.c : ℚ) < c := by
        calc (x.c : ℚ) = c * (10:ℚ) ^ (e - x.e) := hxq
        _ < c * 1 := by
            apply mul_lt_mul_of_pos_left h1
            exact_mod_cast Nat.pos_of_ne_zero hc0
        _ = c := by ring
      have : x.c < c := by exact_mod_cast h2
      omega
    have hxn : x.c = c * 10 ^ (e - x.e).toNat := nat_eq_of_cast_eq_mul_zpow htpos hxq
    have hkt : numDigits x.c - PREC ≤ (e - x.e).toNat := by
      by_contra hcon
      push_neg at hcon
      have hb : x.c < 10 ^ (PREC + (e - x.e).toNat) := by
        calc x.c = c * 10 ^ (e - x.e).toNat := hxn
        _ < 10 ^ PREC * 10 ^ (e - x.e).toNat :=
            (Nat.mul_lt_mul_right (Nat.pos_pow_of_pos _ (by norm_num))).mpr hc
        _ = 10 ^ (PREC + (e - x.e).toNat) := by rw [pow_add]
      have := (numDigits_le_iff x.c (PREC + (e - x.e).toNat) (by norm_num [PREC])).mpr hb
      omega
    have hdvd : 10 ^ (numDigits x.c - PREC) ∣ x.c := by
      have hstep : 10 ^ (numDigits x.c - PREC) ∣ c * 10 ^ (e - x.e).toNat :=
        Dvd.dvd.mul_left (pow_dvd_pow 10 hkt) c
      rw [← hxn] at hstep
      exact hstep
    have hmod : x.c % 10 ^ (numDigits x.c - PREC) = 0 := Nat.mod_eq_zero_of_dvd hdvd
    simp only [roundHalfEven_of_exact _ _ (Nat.pos_pow_of_pos _ (by norm_num)) hmod]
    have hqlt : x.c / 10 ^ (numDigits x.c - PREC) < 10 ^ PREC := by
      rw [Nat.div_lt_iff_lt_mul (Nat.pos_pow_of_pos _ (by norm_num)), ← pow_add]
      have heq : PREC + (numDigits x.c - PREC) = numDigits x.c := by omega
      rw [heq]
      exact lt_pow_numDigits x.c
    rw [if_neg (by push_neg; exact (numDigits_le_iff _ PREC (by norm_num [PREC])).mpr hqlt)]
    have hmul : x.c / 10 ^ (numDigits x.c - PREC) * 10 ^ (numDigits x.c - PREC) = x.c :=
      Nat.div_mul_cancel hdvd
    have hcast : ((x.c / 10 ^ (numDigits x.c - PREC) : ℕ) : ℚ) *
        (10:ℚ) ^ ((numDigits x.c - PREC : ℕ) : ℤ) = (x.c : ℚ) := by
      rw [zpow_natCast]
      exact_mod_cast congrArg (fun n : ℕ => (n : ℚ)) hmul
    show ((x.c / 10 ^ (numDigits x.c - PREC) : ℕ) : ℚ) *
        (10:ℚ) ^ (x.e + (numDigits x.c - PREC : ℕ)) = (x.c : ℚ) * (10:ℚ) ^ x.e
    rw [zpow_add₀ (by norm_num : (10:ℚ) ≠ 0)]
    calc ((x.c / 10 ^ (numDigits x.c - PREC) : ℕ) : ℚ) *
        ((10:ℚ) ^ x.e * (10:ℚ) ^ ((numDigits x.c - PREC : ℕ) : ℤ)) =
        (((x.c / 10 ^ (numDigits x.c - PREC) : ℕ) : ℚ) *
          (10:ℚ) ^ ((numDigits x.c - PREC : ℕ) : ℤ)) * (10:ℚ) ^ x.e := by ring
    _ = (x.c : ℚ) * (10:ℚ) ^ x.e := by rw [hcast]

theorem stripQ_spec :
    ∀ (fuel q : Nat) (e0 : Int), q ≠ 0 →
      ∃ j : Nat, 10 ^ j ∣ q ∧ stripQ fuel q e0 = (q / 10 ^ j, e0 + j) := by
  intro fuel
  induction fuel with
  | zero =>
    intro q e0 _
    exact ⟨0, by simp, by simp [stripQ]⟩
  | succ f ih =>
    intro q e0 hq
    by_cases h10 : q % 10 = 0
    · have hdvd10 : (10:ℕ) ∣ q := Nat.dvd_of_mod_eq_zero h10
      have hq10 : q / 10 ≠ 0 := by
        obtain ⟨t, rfl⟩ := hdvd10
        have : t ≠ 0 := by rintro rfl; simp at hq
        simpa [Nat.mul_div_cancel_left t (by norm_num : (0:ℕ) < 10)] using this
      obtain ⟨j, hjd, hjeq⟩ := ih (q / 10) (e0 + 1) hq10
      refine ⟨j + 1, ?_, ?_⟩
      · obtain ⟨t, ht⟩ := hjd
        obtain ⟨s, rfl⟩ := hdvd10
        rw [Nat.mul_div_cancel_left s (by norm_num : (0:ℕ) < 10)] at ht
        exact ⟨t, by rw [ht]; ring⟩
      · rw [stripQ, if_pos h10, hjeq]
        have h1 : q / 10 / 10 ^ j = q / 10 ^ (j + 1) := by
          have hp : (10:ℕ) * 10 ^ j = 10 ^ (j + 1) := by ring
          rw [Nat.div_div_eq_div_mul, hp]
        have h2 : e0 + 1 + (j:ℤ) = e0 + ((j + 1 : ℕ) : ℤ) := by push_cast; ring
        rw [h1, h2]
    · exact ⟨0, by simp, by simp [stripQ, h10]⟩

theorem stripAllAux_spec :
    ∀ (fuel c : Nat) (e : Int), c ≤ fuel → c ≠ 0 →
      decVal (stripAllAux fuel c e) = decVal ⟨c, e⟩ ∧
      (stripAllAux fuel c e).c ≠ 0 ∧ (stripAllAux fuel c e).c % 10 ≠ 0 ∧
      (stripAllAux fuel c e).c ≤ c := by
  intro fuel
  induction fuel with
  | zero => intro c e hle hne; omega
  | succ f ih =>
    intro c e hle hne
    by_cases h : c % 10 = 0 ∧ c ≠ 0
    · have hdvd10 : (10:ℕ) ∣ c := Nat.dvd_of_mod_eq_zero h.1
      have hc10 : c / 10 ≠ 0 := by
        obtain ⟨t, rfl⟩ := hdvd10
        have : t ≠ 0 := by rintro rfl; simp at hne
        simpa [Nat.mul_div_cancel_left t (by norm_num : (0:ℕ) < 10)] using this
      have hlt : c / 10 < c := Nat.div_lt_self (Nat.pos_of_ne_zero hne) (by norm_num)
      obtain ⟨hv, hnz, hmod, hcle⟩ := ih (c / 10) (e + 1) (by omega) hc10
      rw [stripAllAux, if_pos h]
      refine ⟨?_, hnz, hmod, by omega⟩
      rw [hv]
      show ((c / 10 : ℕ) : ℚ) * (10:ℚ) ^ (e + 1) = (c : ℚ) * (10:ℚ) ^ e
      have hmul : (c / 10 : ℕ) * 10 = c := Nat.div_mul_cancel hdvd10
      have hcast : ((c / 10 : ℕ) : ℚ) * 10 = (c : ℚ) := by exact_mod_cast hmul
      rw [zpow_add_one₀ (by norm_num : (10:ℚ) ≠ 0)]
      calc ((c / 10 : ℕ) : ℚ) * ((10:ℚ) ^ e * 10) = (((c / 10 : ℕ) : ℚ) * 10) * (10:ℚ) ^ e := by
            ring
      _ = (c : ℚ) * (10:ℚ) ^ e := by rw [hcast]
    · rw [stripAllAux, if_neg h]
      push_neg at h
      exact ⟨rfl, hne, fun hmod => hne (h hmod), le_rfl⟩

theorem normDec_val (d : Dec) : decVal (normDec d) = decVal d := by
  rw [normDec]
  by_cases h : d.c = 0
  · rw [if_pos h]
    simp [decVal, h]
  · rw [if_neg h]
    exact (stripAllAux_spec d.c d.c d.e le_rfl h).1

theorem normDec_canon (d : Dec) (h : (normDec d).c ≠ 0) : (normDec d).c % 10 ≠ 0 := by
  rw [normDec] at h ⊢
  by_cases h0 : d.c = 0
  · rw [if_pos h0] at h
    simp at h
  · rw [if_neg h0] at h ⊢
    exact (stripAllAux_spec d.c d.c d.e le_rfl h0).2.2.1

theorem normDec_c_le (d : Dec) : (normDec d).c ≤ d.c := by
  rw [normDec]
  by_cases h : d.c = 0
  · rw [if_pos h]
    exact Nat.zero_le _
  · rw [if_neg h]
    exact (stripAllAux_spec d.c d.c d.e le_rfl h).2.2.2

theorem divCore_exact (num den c m fuel : Nat) (e0 : Int)
    (hden : den ≠ 0) (hc0 : c ≠ 0) (hc : c < 10 ^ PREC)
    (hnum : num = c * 10 ^ m * den) :
    decVal (divCore num den e0 fuel) = (c : ℚ) * (10:ℚ) ^ (e0 + m) := by
  have hq : num / den = c * 10 ^ m := by
    rw [hnum, Nat.mul_div_cancel _ (Nat.pos_of_ne_zero hden)]
  have hr : num % den = 0 := by
    rw [hnum]
    exact Nat.mul_mod_left _ _
  have hqne : c * 10 ^ m ≠ 0 :=
    Nat.mul_ne_zero hc0 (Nat.pos_pow_of_pos m (by norm_num)).ne'
  obtain ⟨j, hjd, hjeq⟩ := stripQ_spec fuel (c * 10 ^ m) e0 hqne
  have hval0 : decVal ⟨c * 10 ^ m / 10 ^ j, e0 + j⟩ = (c : ℚ) * (10:ℚ) ^ (e0 + m) := by
    show ((c * 10 ^ m / 10 ^ j : ℕ) : ℚ) * (10:ℚ) ^ (e0 + (j:ℕ)) = (c : ℚ) * (10:ℚ) ^ (e0 + m)
    have hmul : c * 10 ^ m / 10 ^ j * 10 ^ j = c * 10 ^ m := Nat.div_mul_cancel hjd
    have hcast : ((c * 10 ^ m / 10 ^ j : ℕ) : ℚ) * (10:ℚ) ^ (j : ℤ) =
        (c : ℚ) * (10:ℚ) ^ (m : ℤ) := by
      rw [zpow_natCast, zpow_natCast]
      exact_mod_cast hmul
    rw [zpow_add₀ (by norm_num : (10:ℚ) ≠ 0), zpow_add₀ (by norm_num : (10:ℚ) ≠ 0)]
    calc ((c * 10 ^ m / 10 ^ j : ℕ) : ℚ) * ((10:ℚ) ^ e0 * (10:ℚ) ^ (j:ℤ)) =
        (((c * 10 ^ m / 10 ^ j : ℕ) : ℚ) * (10:ℚ) ^ (j:ℤ)) * (10:ℚ) ^ e0 := by ring
    _ = ((c : ℚ) * (10:ℚ) ^ (m:ℤ)) * (10:ℚ) ^ e0 := by rw [hcast]
    _ = (c : ℚ) * ((10:ℚ) ^ e0 * (10:ℚ) ^ (m:ℤ)) := by ring
  rw [divCore]
  simp only [hq, hr]
  rw [if_true, hjeq]
  show decVal (fixPrec ⟨c * 10 ^ m / 10 ^ j, e0 + (j:ℤ)⟩) = (c : ℚ) * (10:ℚ) ^ (e0 + (m:ℤ))
  rw [fixPrec_exact _ c (e0 + (m:ℤ)) hc hval0, hval0]

theorem divCore_c_lt (num den fuel : Nat) (e0 : Int) :
    (divCore num den e0 fuel).c < 10 ^ PREC := by
  rw [divCore]
  split
  · exact fixPrec_c_lt _
  · exact fixPrec_c_lt _

theorem divDec_c_lt (a b : Nat) : (divDec a b).c < 10 ^ PREC := by
  rw [divDec]
  by_cases ha : a = 0
  · rw [if_pos ha]
    show 0 < 10 ^ PREC
    exact Nat.pos_pow_of_pos _ (by norm_num)
  · rw [if_neg ha]
    by_cases hsh : 0 ≤ shVal a b
    · rw [if_pos hsh]
      exact divCore_c_lt _ _ _ _
    · rw [if_neg hsh]
      exact divCore_c_lt _ _ _ _

/-- If the true quotient `a / b` is representable with a coefficient of at
most `PREC` digits, the 40-digit context division is exact. -/
theorem divDec_exact (a b c : Nat) (e : Int) (ha : a ≠ 0) (hb : b ≠ 0)
    (hc : c < 10 ^ PREC) (hval : (a : ℚ) / (b : ℚ) = (c : ℚ) * (10:ℚ) ^ e) :
    decVal (divDec a b) = (a : ℚ) / (b : ℚ) := by
  have hbq : (b : ℚ) ≠ 0 := Nat.cast_ne_zero.mpr hb
  have haq : (a : ℚ) ≠ 0 := Nat.cast_ne_zero.mpr ha
  have hbpos : (0:ℚ) < b := Nat.cast_pos.mpr (Nat.pos_of_ne_zero hb)
  have hc0 : c ≠ 0 := by
    rintro rfl
    rw [Nat.cast_zero, zero_mul] at hval
    exact haq ((div_eq_zero_iff.mp hval).resolve_right hbq)
  have h1 : (10:ℚ) ^ ((numDigits a : ℤ) - 1) ≤ (a : ℚ) := by
    have hn := pow_numDigits_pred_le a ha
    have hz : (10:ℚ) ^ ((numDigits a : ℤ) - 1) = ((10 ^ (numDigits a - 1) : ℕ) : ℚ) := by
      rw [show (numDigits a : ℤ) - 1 = ((numDigits a - 1 : ℕ) : ℤ) by
        have := numDigits_pos a; omega, zpow_natCast]
      push_cast
      ring
    rw [hz]
    exact_mod_cast hn
  have h2 : (b : ℚ) < (10:ℚ) ^ ((numDigits b : ℕ) : ℤ) := by
    have hn := lt_pow_numDigits b
    rw [zpow_natCast]
    exact_mod_cast hn
  have hlow : (10:ℚ) ^ ((numDigits a : ℤ) - 1 - (numDigits b : ℕ)) < (a : ℚ) / b := by
    rw [zpow_sub₀ (by norm_num : (10:ℚ) ≠ 0), div_lt_div_iff₀ (by positivity) hbpos]
    calc (10:ℚ) ^ ((numDigits a : ℤ) - 1) * b
        < (10:ℚ) ^ ((numDigits a : ℤ) - 1) * (10:ℚ) ^ ((numDigits b : ℕ) : ℤ) :=
          mul_lt_mul_of_pos_left h2 (by positivity)
    _ ≤ (a : ℚ) * (10:ℚ) ^ ((numDigits b : ℕ) : ℤ) :=
          mul_le_mul_of_nonneg_right h1 (by positivity)
  have hhigh : (a : ℚ) / b < (10:ℚ) ^ ((PREC : ℤ) + e) := by
    rw [hval, zpow_add₀ (by norm_num : (10:ℚ) ≠ 0)]
    apply mul_lt_mul_of_pos_right _ (by positivity)
    rw [show ((PREC : ℕ) : ℤ) = ((PREC : ℕ) : ℤ) from rfl, zpow_natCast]
    exact_mod_cast hc
  have hkey : (numDigits a : ℤ) - 1 - (numDigits b : ℕ) < (PREC : ℤ) + e :=
    (zpow_lt_zpow_iff_right₀ (by norm_num : (1:ℚ) < 10)).mp (lt_trans hlow hhigh)
  have hesh : 1 ≤ e + shVal a b := by
    rw [shVal]
    omega
  have hmain : (a : ℚ) = (c : ℚ) * (10:ℚ) ^ e * b := by
    rw [div_eq_iff hbq] at hval
    exact hval
  have hm0 : 0 ≤ e + shVal a b := by omega
  have hzm : ((10 ^ (e + shVal a b).toNat : ℕ) : ℚ) = (10:ℚ) ^ (e + shVal a b) := by
    push_cast
    rw [← zpow_natCast (10:ℚ) (e + shVal a b).toNat, Int.toNat_of_nonneg hm0]
  have hexp : -shVal a b + (((e + shVal a b).toNat : ℕ) : ℤ) = e := by
    rw [Int.toNat_of_nonneg hm0]
    ring
  rw [divDec, if_neg ha]
  by_cases hsh : 0 ≤ shVal a b
  · rw [if_pos hsh]
    have hzs : ((10 ^ (shVal a b).toNat : ℕ) : ℚ) = (10:ℚ) ^ shVal a b := by
      push_cast
      rw [← zpow_natCast (10:ℚ) (shVal a b).toNat, Int.toNat_of_nonneg hsh]
    have hnum : a * 10 ^ (shVal a b).toNat = c * 10 ^ (e + shVal a b).toNat * b := by
      have hq : (a : ℚ) * ((10 ^ (shVal a b).toNat : ℕ) : ℚ) =
          (c : ℚ) * ((10 ^ (e + shVal a b).toNat : ℕ) : ℚ) * b := by
        rw [hzs, hzm, hmain, zpow_add₀ (by norm_num : (10:ℚ) ≠ 0)]
        ring
      exact_mod_cast hq
    rw [divCore_exact (a * 10 ^ (shVal a b).toNat) b c (e + shVal a b).toNat
      (shVal a b).toNat (-shVal a b) hb hc0 hc hnum, hexp, hval]
  · rw [if_neg hsh]
    push_neg at hsh
    have hsn : 0 ≤ -shVal a b := by omega
    have hzs : ((10 ^ (-shVal a b).toNat : ℕ) : ℚ) = (10:ℚ) ^ (-shVal a b) := by
      push_cast
      rw [← zpow_natCast (10:ℚ) (-shVal a b).toNat, Int.toNat_of_nonneg hsn]
    have hden : b * 10 ^ (-shVal a b).toNat ≠ 0 :=
      Nat.mul_ne_zero hb (Nat.pos_pow_of_pos _ (by norm_num)).ne'
    have hne10 : ((10:ℚ) ^ shVal a b) ≠ 0 := zpow_ne_zero _ (by norm_num)
    have hnum : a = c * 10 ^ (e + shVal a b).toNat * (b * 10 ^ (-shVal a b).toNat) := by
      have hq : (a : ℚ) = (c : ℚ) * ((10 ^ (e + shVal a b).toNat : ℕ) : ℚ) *
          ((b : ℚ) * ((10 ^ (-shVal a b).toNat : ℕ) : ℚ)) := by
        rw [hzs, hzm, hmain, zpow_add₀ (by norm_num : (10:ℚ) ≠ 0), zpow_neg]
        calc (c:ℚ) * (10:ℚ) ^ e * b
            = (c:ℚ) * (10:ℚ) ^ e * b * ((10:ℚ) ^ shVal a b * ((10:ℚ) ^ shVal a b)⁻¹) := by
              rw [mul_inv_cancel₀ hne10, mul_one]
        _ = (c:ℚ) * ((10:ℚ) ^ e * (10:ℚ) ^ shVal a b) *
              ((b:ℚ) * ((10:ℚ) ^ shVal a b)⁻¹) := by ring
      exact_mod_cast hq
    rw [divCore_exact a (b * 10 ^ (-shVal a b).toNat) c (e + shVal a b).toNat
      (shVal a b).toNat (-shVal a b) hden hc0 hc hnum, hexp, hval]

/-! ## String round-trip lemmas (towards claim C6) -/

theorem takeWhile_of_all {p : Char → Bool} :
    ∀ {l : List Char}, (∀ c ∈ l, p c = true) → l.takeWhile p = l := by
  intro l
  induction l with
  | nil => intro _; rfl
  | cons c cs ih =>
    intro h
    have hc : p c = true := h c (List.mem_cons_self c cs)
    have hrest := ih (fun x hx => h x (List.mem_cons_of_mem c hx))
    simp [List.takeWhile_cons, hc, hrest]

theorem dropWhile_of_all {p : Char → Bool} :
    ∀ {l : List Char}, (∀ c ∈ l, p c = true) → l.dropWhile p = [] := by
  intro l
  induction l with
  | nil => intro _; rfl
  | cons c cs ih =>
    intro h
    have hc : p c = true := h c (List.mem_cons_self c cs)
    have hrest := ih (fun x hx => h x (List.mem_cons_of_mem c hx))
    simp [List.dropWhile_cons, hc, hrest]

theorem takeWhile_append_of_all {p : Char → Bool} {l2 : List Char} :
    ∀ {l1 : List Char}, (∀ c ∈ l1, p c = true) →
      (l1 ++ l2).takeWhile p = l1 ++ l2.takeWhile p := by
  intro l1
  induction l1 with
  | nil => intro _; rfl
  | cons c cs ih =>
    intro h
    have hc : p c = true := h c (List.mem_cons_self c cs)
    have hrest := ih (fun x hx => h x (List.mem_cons_of_mem c hx))
    simp [List.takeWhile_cons, hc, hrest]

theorem dropWhile_append_of_all {p : Char → Bool} {l2 : List Char} :
    ∀ {l1 : List Char}, (∀ c ∈ l1, p c = true) →
      (l1 ++ l2).dropWhile p = l2.dropWhile p := by
  intro l1
  induction l1 with
  | nil => intro _; rfl
  | cons c cs ih =>
    intro h
    have hc : p c = true := h c (List.mem_cons_self c cs)
    have hrest := ih (fun x hx => h x (List.mem_cons_of_mem c hx))
    simp [List.dropWhile_cons, hc, hrest]

theorem takeWhile_dot_cons (l : List Char) :
    List.takeWhile (fun x => x != '.') ('.' :: l) = [] := by
  simp [List.takeWhile_cons]

theorem dropWhile_dot_cons (l : List Char) :
    List.dropWhile (fun x => x != '.') ('.' :: l) = '.' :: l := by
  simp [List.dropWhile_cons]

theorem takeWhile_E_cons (l : List Char) :
    List.takeWhile (fun x => x != 'E') ('E' :: l) = [] := by
  simp [List.takeWhile_cons]

theorem dropWhile_E_cons (l : List Char) :
    List.dropWhile (fun x => x != 'E') ('E' :: l) = 'E' :: l := by
  simp [List.dropWhile_cons]

theorem isDig_ne_E {c : Char} (h : isDig c = true) : (c != 'E') = true := by
  rcases eq_or_ne c 'E' with rfl | hne
  · exact absurd h (by decide)
  · simp [bne_iff_ne, hne]

theorem isDig_ne_dot {c : Char} (h : isDig c = true) : (c != '.') = true := by
  rcases eq_or_ne c '.' with rfl | hne
  · exact absurd h (by decide)
  · simp [bne_iff_ne, hne]

theorem mapVals_digVal_of_all :
    ∀ {l : List Char}, (∀ c ∈ l, isDig c = true) →
      mapVals digVal? l = some (l.map digVal) := by
  intro l
  induction l with
  | nil => intro _; rfl
  | cons c cs ih =>
    intro h
    have hc : isDig c = true := h c (List.mem_cons_self c cs)
    have hc2 : '0' ≤ c ∧ c ≤ '9' := by
      simpa [isDig, Bool.and_eq_true, decide_eq_true_eq] using hc
    have hcv : digVal? c = some (digVal c) := by
      rw [digVal?, if_pos hc2]
      rfl
    have hrest := ih (fun x hx => h x (List.mem_cons_of_mem c hx))
    simp [mapVals, hcv, hrest]

theorem parseNat?_eq_of_all {l : List Char} (h : l ≠ []) (hd : ∀ c ∈ l, isDig c = true) :
    parseNat? l = some (beVal 10 (l.map digVal)) := by
  rw [parseNat?, if_neg h, mapVals_digVal_of_all hd]

theorem beVal_natChars (n : Nat) : beVal 10 ((natChars n).map digVal) = n := by
  have h1 := parseNat?_natChars n
  rw [parseNat?_eq_of_all (natChars_ne_nil n) (natChars_all_digit n)] at h1
  exact Option.some.inj h1

theorem beVal_append (b : Nat) (d1 d2 : List Nat) :
    beVal b (d1 ++ d2) = beVal b d1 * b ^ d2.length + beVal b d2 := by
  rw [beVal, beVal, beVal, List.reverse_append, Nat.ofDigits_append, List.length_reverse]
  ring

theorem ofDigits_replicate_zero (b : Nat) : ∀ z, Nat.ofDigits b (List.replicate z 0) = 0 := by
  intro z
  induction z with
  | zero => rfl
  | succ n ih =>
    rw [List.replicate_succ, Nat.ofDigits_cons, ih]
    simp

theorem beVal_replicate_zero (b z : Nat) : beVal b (List.replicate z 0) = 0 := by
  rw [beVal, List.reverse_replicate]
  exact ofDigits_replicate_zero b z

theorem natChars_length (n : Nat) : (natChars n).length = numDigits n := by
  by_cases h : n = 0
  · subst h; rfl
  · rw [natChars, if_neg h, numDigits, if_neg h, List.length_map, List.length_reverse]

theorem beVal_take_drop (l : List Char) (k : Nat) :
    beVal 10 (l.map digVal) =
      beVal 10 ((l.take k).map digVal) * 10 ^ (l.length - k) +
        beVal 10 ((l.drop k).map digVal) := by
  conv_lhs => rw [← List.take_append_drop k l]
  rw [List.map_append, beVal_append, List.length_map, List.length_drop]

theorem parseIntChars?_intSignChars (z : Int) :
    parseIntChars? (intSignChars z) = some z := by
  rw [intSignChars]
  by_cases h : z < 0
  · rw [if_pos h]
    simp only [parseIntChars?]
    rw [if_true, parseNat?_natChars]
    show some (-(((-z).toNat : ℕ) : ℤ)) = some z
    congr 1
    omega
  · rw [if_neg h]
    simp only [parseIntChars?]
    rw [if_true, parseNat?_natChars]
    show some (((z.toNat : ℕ) : ℤ)) = some z
    congr 1
    omega

/-- Recompose an integer-and-fraction split into a scaled coefficient. -/
theorem q_recompose (hi lo m : Nat) (e z : Int) (hz : z = e + (m : ℤ)) :
    ((hi : ℚ) + (lo : ℚ) / (10:ℚ) ^ m) * (10:ℚ) ^ z =
      ((hi * 10 ^ m + lo : ℕ) : ℚ) * (10:ℚ) ^ e := by
  subst hz
  push_cast
  rw [zpow_add₀ (by norm_num : (10:ℚ) ≠ 0), zpow_natCast]
  have h10 : ((10:ℚ) ^ m) ≠ 0 := pow_ne_zero m (by norm_num)
  field_simp
  ring

/-- Parsing a plain digit string. -/
theorem parseDec?_plain (l : List Char) (h : l ≠ []) (hd : ∀ c ∈ l, isDig c = true) :
    parseDec? l = some ((beVal 10 (l.map digVal) : ℚ)) := by
  have hE : ∀ c ∈ l, (c != 'E') = true := fun c hc => isDig_ne_E (hd c hc)
  have hD : ∀ c ∈ l, (c != '.') = true := fun c hc => isDig_ne_dot (hd c hc)
  simp only [parseDec?, takeWhile_of_all hE, dropWhile_of_all hE,
    takeWhile_of_all hD, dropWhile_of_all hD, List.drop_nil,
    parseNat?_eq_of_all h hd, List.length_nil,
    Option.bind_eq_bind, Option.some_bind]
  norm_num

/-- Parsing a digit string with one interior decimal point. -/
theorem parseDec?_dot (ip fp : List Char) (hip : ip ≠ []) (hfp : fp ≠ [])
    (hdip : ∀ c ∈ ip, isDig c = true) (hdfp : ∀ c ∈ fp, isDig c = true) :
    parseDec? (ip ++ '.' :: fp) =
      some ((beVal 10 (ip.map digVal) : ℚ) +
        (beVal 10 (fp.map digVal) : ℚ) / (10:ℚ) ^ fp.length) := by
  have hE_all : ∀ c ∈ ip ++ '.' :: fp, (c != 'E') = true := by
    intro c hc
    rcases List.mem_append.mp hc with h1 | h2
    · exact isDig_ne_E (hdip c h1)
    · rcases List.mem_cons.mp h2 with rfl | h3
      · decide
      · exact isDig_ne_E (hdfp c h3)
  have hDip : ∀ c ∈ ip, (c != '.') = true := fun c hc => isDig_ne_dot (hdip c hc)
  simp only [parseDec?, takeWhile_of_all hE_all, dropWhile_of_all hE_all,
    takeWhile_append_of_all hDip, dropWhile_append_of_all hDip,
    takeWhile_dot_cons, dropWhile_dot_cons,
    List.append_nil, List.drop_one, List.tail_cons, List.length_cons,
    parseNat?_eq_of_all hip hdip, parseNat?_eq_of_all hfp hdfp,
    Option.bind_eq_bind, Option.some_bind, if_neg hfp]
  norm_num

/-- Parsing a plain digit string with a scientific-notation exponent. -/
theorem parseDec?_sci_plain (l : List Char) (z : Int) (h : l ≠ [])
    (hd : ∀ c ∈ l, isDig c = true) :
    parseDec? (l ++ 'E' :: intSignChars z) =
      some ((beVal 10 (l.map digVal) : ℚ) * (10:ℚ) ^ z) := by
  have hEdig : ∀ c ∈ l, (c != 'E') = true := fun c hc => isDig_ne_E (hd c hc)
  have hD : ∀ c ∈ l, (c != '.') = true := fun c hc => isDig_ne_dot (hd c hc)
  simp only [parseDec?, takeWhile_append_of_all hEdig, dropWhile_append_of_all hEdig,
    takeWhile_E_cons, dropWhile_E_cons, List.append_nil,
    takeWhile_of_all hD, dropWhile_of_all hD, List.drop_nil, List.length_nil,
    List.drop_one, List.tail_nil,
    parseNat?_eq_of_all h hd, parseIntChars?_intSignChars,
    Option.bind_eq_bind, Option.some_bind]
  norm_num

/-- Parsing a dotted digit string with a scientific-notation exponent. -/
theorem parseDec?_sci_dot (ip fp : List Char) (z : Int) (hip : ip ≠ []) (hfp : fp ≠ [])
    (hdip : ∀ c ∈ ip, isDig c = true) (hdfp : ∀ c ∈ fp, isDig c = true) :
    parseDec? (ip ++ '.' :: (fp ++ 'E' :: intSignChars z)) =
      some (((beVal 10 (ip.map digVal) : ℚ) +
        (beVal 10 (fp.map digVal) : ℚ) / (10:ℚ) ^ fp.length) * (10:ℚ) ^ z) := by
  have hshape : ip ++ '.' :: (fp ++ 'E' :: intSignChars z) =
      (ip ++ '.' :: fp) ++ 'E' :: intSignChars z := by
    rw [List.append_assoc, List.cons_append]
  rw [hshape]
  have hEm : ∀ c ∈ ip ++ '.' :: fp, (c != 'E') = true := by
    intro c hc
    rcases List.mem_append.mp hc with h1 | h2
    · exact isDig_ne_E (hdip c h1)
    · rcases List.mem_cons.mp h2 with rfl | h3
      · decide
      · exact isDig_ne_E (hdfp c h3)
  have hDip : ∀ c ∈ ip, (c != '.') = true := fun c hc => isDig_ne_dot (hdip c hc)
  simp only [parseDec?, takeWhile_append_of_all hEm, dropWhile_append_of_all hEm,
    takeWhile_E_cons, dropWhile_E_cons, List.append_nil,
    takeWhile_append_of_all hDip, dropWhile_append_of_all hDip,
    takeWhile_dot_cons, dropWhile_dot_cons,
    List.drop_one, List.tail_cons, List.length_cons,
    parseNat?_eq_of_all hip hdip, parseNat?_eq_of_all hfp hdfp,
    parseIntChars?_intSignChars,
    Option.bind_eq_bind, Option.some_bind, if_neg hfp]

theorem ne_nil_of_pos_len {l : List Char} (h : 0 < l.length) : l ≠ [] := by
  intro hcon
  rw [hcon] at h
  simp at h

theorem dot_case (d : Dec) (k : Nat)
    (hz : (0:ℤ) = d.e + (((natChars d.c).length - k : ℕ) : ℤ)) :
    ((beVal 10 (((natChars d.c).take k).map digVal) : ℚ) +
      (beVal 10 (((natChars d.c).drop k).map digVal) : ℚ) /
        (10:ℚ) ^ ((natChars d.c).length - k)) = decVal d := by
  have hsplit : d.c =
      beVal 10 (((natChars d.c).take k).map digVal) * 10 ^ ((natChars d.c).length - k) +
        beVal 10 (((natChars d.c).drop k).map digVal) :=
    (beVal_natChars d.c).symm.trans (beVal_take_drop (natChars d.c) k)
  have h := q_recompose (beVal 10 (((natChars d.c).take k).map digVal))
    (beVal 10 (((natChars d.c).drop k).map digVal)) ((natChars d.c).length - k) d.e 0 hz
  rw [zpow_zero, mul_one] at h
  rw [h, ← hsplit, decVal]

theorem dot_sci_case (d : Dec) (k : Nat) (z : Int)
    (hz : z = d.e + (((natChars d.c).length - k : ℕ) : ℤ)) :
    (((beVal 10 (((natChars d.c).take k).map digVal) : ℚ) +
      (beVal 10 (((natChars d.c).drop k).map digVal) : ℚ) /
        (10:ℚ) ^ ((natChars d.c).length - k)) * (10:ℚ) ^ z) = decVal d := by
  have hsplit : d.c =
      beVal 10 (((natChars d.c).take k).map digVal) * 10 ^ ((natChars d.c).length - k) +
        beVal 10 (((natChars d.c).drop k).map digVal) :=
    (beVal_natChars d.c).symm.trans (beVal_take_drop (natChars d.c) k)
  rw [q_recompose _ _ _ d.e z hz, ← hsplit, decVal]

/-- `parseDec?` recovers the value of every decimal rendered by `decChars`
(the model of `str(Decimal)`). -/
theorem parseDec?_decChars (d : Dec) : parseDec? (decChars d) = some (decVal d) := by
  have hall := natChars_all_digit d.c
  have hne := natChars_ne_nil d.c
  have hlen1 : 1 ≤ (natChars d.c).length := by
    rw [natChars_length]
    exact numDigits_pos d.c
  simp only [decChars]
  by_cases hA : d.e ≤ 0 ∧ -6 < d.e + ((natChars d.c).length : ℤ)
  · rw [if_pos hA]
    by_cases hA1 : d.e = 0
    · rw [if_pos hA1]
      rw [parseDec?_plain (natChars d.c) hne hall, beVal_natChars, decVal, hA1,
        zpow_zero, mul_one]
    · rw [if_neg hA1]
      by_cases hA2 : 0 < d.e + ((natChars d.c).length : ℤ)
      · rw [if_pos hA2]
        have hk : (((d.e + ((natChars d.c).length : ℤ)).toNat : ℕ) : ℤ) =
            d.e + ((natChars d.c).length : ℤ) := Int.toNat_of_nonneg (by omega)
        have hklt : (d.e + ((natChars d.c).length : ℤ)).toNat < (natChars d.c).length := by
          omega
        have hip : (natChars d.c).take (d.e + ((natChars d.c).length : ℤ)).toNat ≠ [] := by
          apply ne_nil_of_pos_len
          rw [List.length_take]
          omega
        have hfp : (natChars d.c).drop (d.e + ((natChars d.c).length : ℤ)).toNat ≠ [] := by
          apply ne_nil_of_pos_len
          rw [List.length_drop]
          omega
        have hdt : ∀ c ∈ (natChars d.c).take (d.e + ((natChars d.c).length : ℤ)).toNat,
            isDig c = true := fun c hc => hall c (List.take_subset _ _ hc)
        have hdd : ∀ c ∈ (natChars d.c).drop (d.e + ((natChars d.c).length : ℤ)).toNat,
            isDig c = true := fun c hc => hall c (List.drop_subset _ _ hc)
        rw [parseDec?_dot _ _ hip hfp hdt hdd, List.length_drop]
        congr 1
        exact dot_case d _ (by omega)
      · rw [if_neg hA2]
        show parseDec? (['0'] ++ '.' ::
          (List.replicate (-(d.e + ((natChars d.c).length : ℤ))).toNat '0' ++ natChars d.c)) =
          some (decVal d)
        have hfp3 : List.replicate (-(d.e + ((natChars d.c).length : ℤ))).toNat '0' ++
            natChars d.c ≠ [] := by
          intro hcon
          exact hne (List.append_eq_nil.mp hcon).2
        have hdfp3 : ∀ c ∈ List.replicate (-(d.e + ((natChars d.c).length : ℤ))).toNat '0' ++
            natChars d.c, isDig c = true := by
          intro c hc
          rcases List.mem_append.mp hc with h1 | h2
          · rw [(List.eq_of_mem_replicate h1 : c = '0')]
            decide
          · exact hall c h2
        rw [parseDec?_dot ['0'] _ (by decide) hfp3 (by decide) hdfp3]
        have hlo : beVal 10 ((List.replicate (-(d.e + ((natChars d.c).length : ℤ))).toNat '0' ++
            natChars d.c).map digVal) = d.c := by
          rw [List.map_append, List.map_replicate, show digVal '0' = 0 from rfl,
            beVal_append, beVal_replicate_zero, beVal_natChars, zero_mul, zero_add]
        rw [hlo, show beVal 10 (['0'].map digVal) = 0 from by decide,
          List.length_append, List.length_replicate]
        congr 1
        have h := q_recompose 0 d.c
          ((-(d.e + ((natChars d.c).length : ℤ))).toNat + (natChars d.c).length) d.e 0 (by omega)
        rw [zpow_zero, mul_one] at h
        rw [h, decVal]
        norm_num
  · rw [if_neg hA]
    by_cases hB : 1 < (natChars d.c).length
    · rw [if_pos hB]
      rw [List.append_assoc, List.cons_append]
      have hip1 : (natChars d.c).take 1 ≠ [] := by
        apply ne_nil_of_pos_len
        rw [List.length_take]
        omega
      have hfp1 : (natChars d.c).drop 1 ≠ [] := by
        apply ne_nil_of_pos_len
        rw [List.length_drop]
        omega
      have hdt1 : ∀ c ∈ (natChars d.c).take 1, isDig c = true :=
        fun c hc => hall c (List.take_subset _ _ hc)
      have hdd1 : ∀ c ∈ (natChars d.c).drop 1, isDig c = true :=
        fun c hc => hall c (List.drop_subset _ _ hc)
      rw [parseDec?_sci_dot _ _ _ hip1 hfp1 hdt1 hdd1, List.length_drop]
      congr 1
      exact dot_sci_case d 1 _ (by omega)
    · rw [if_neg hB]
      rw [List.append_nil, List.take_of_length_le (by omega)]
      rw [parseDec?_sci_plain (natChars d.c) _ hne hall, beVal_natChars]
      have hexp : d.e + ((natChars d.c).length : ℤ) - 1 = d.e := by omega
      rw [hexp, decVal]

/-! ## Claims C3 and C6: decoded sides, amounts and decimal strings -/

/-- Fallback record used only to name concrete decoded trades. -/
def dummyTrade : Trade :=
  ⟨[], [], [], 0, 0, 0, 0, 0, Side.sell, [], ⟨0, 0⟩, ⟨0, 0⟩, [], [], [], 0, 0, [], []⟩

/-- The trade decoded from the example log of spec §8. -/
def c3t : Trade := (decode_order_filled_log exampleLog).toOption.getD dummyTrade

/-- A well-formed log whose price `1 / 3` is not a 40-digit decimal:
`makerAssetId = 0`, `takerAssetId = 555`, `makerAmountFilled = 1`,
`takerAmountFilled = 3`. -/
def c3badLog : RawLog where
  topics := [
    '0' :: 'x' :: hexPad64 0,
    '0' :: 'x' :: hexPad64 0xa1b2,
    '0' :: 'x' :: hexPad64 0xc3d4]
  data := '0' :: 'x' ::
    (hexPad64 0xfeed ++ hexPad64 0 ++ hexPad64 555 ++
     hexPad64 1 ++ hexPad64 3 ++ hexPad64 0)
  transactionHash := ['0', 'x', 'a', 'c']
  logIndex := 8
  blockNumber := 4243
  blockHash := ['0', 'x', 'c', 'e']
  address := ['0', 'x', 'e', 'f']

/-- The trade decoded from `c3badLog`. -/
def c3bt : Trade := (decode_order_filled_log c3badLog).toOption.getD dummyTrade

/-- The quotient of two six-decimal fixed-point amounts, as stored. -/
theorem div_usdc_scale (n : Nat) :
    (n : ℚ) / (USDC_SCALE : ℚ) = (n : ℚ) * (10:ℚ) ^ (-6 : ℤ) := by
  rw [show ((USDC_SCALE : ℕ) : ℚ) = (10:ℚ) ^ (6:ℕ) by norm_num [USDC_SCALE]]
  rw [div_eq_mul_inv]
  congr 1
  rw [show ((-6 : ℤ)) = -((6:ℕ) : ℤ) from rfl, zpow_neg, zpow_natCast]

set_option maxRecDepth 400000 in
/-- C3: for every log the decoder accepts, side is BUY exactly when the
maker asset id is zero and the taker asset id is non-zero; the token id is
the taker (BUY) or maker (SELL) asset id rendered in decimal; with the
token amount and collateral amount selected the same way, a zero token
amount yields zero size and price, and otherwise size equals
`tokenAmount / 10^6` and price equals `collateralAmount / tokenAmount`
whenever those quotients are representable within the 40-digit context;
the spec §8 example decodes to side BUY, token id `"555"`, size `"2"`,
price `"0.5"`. -/
theorem decode_order_filled_log_spec (log : RawLog) (t : Trade)
    (h : decode_order_filled_log log = Except.ok t) :
    (t.side = Side.buy ↔ (t.maker_asset_id = 0 ∧ t.taker_asset_id ≠ 0)) ∧
    t.token_id =
      natChars (if t.side = Side.buy then t.taker_asset_id else t.maker_asset_id) ∧
    ((if t.side = Side.buy then t.taker_amount_filled else t.maker_amount_filled) = 0 →
      t.sizeDec = ⟨0, 0⟩ ∧ t.priceDec = ⟨0, 0⟩) ∧
    ((if t.side = Side.buy then t.taker_amount_filled else t.maker_amount_filled) ≠ 0 →
      (if t.side = Side.buy then t.taker_amount_filled else t.maker_amount_filled) < 10 ^ PREC →
      decVal t.sizeDec =
        ((if t.side = Side.buy then t.taker_amount_filled else t.maker_amount_filled : ℕ) : ℚ) /
          (USDC_SCALE : ℚ)) ∧
    ((if t.side = Side.buy then t.taker_amount_filled else t.maker_amount_filled) ≠ 0 →
      ∀ (c : Nat) (e : Int), c < 10 ^ PREC →
        ((if t.side = Side.buy then t.maker_amount_filled else t.taker_amount_filled : ℕ) : ℚ) /
          ((if t.side = Side.buy then t.taker_amount_filled else t.maker_amount_filled : ℕ) : ℚ) =
            (c : ℚ) * (10:ℚ) ^ e →
      decVal t.priceDec =
        ((if t.side = Side.buy then t.maker_amount_filled else t.taker_amount_filled : ℕ) : ℚ) /
          ((if t.side = Side.buy then t.taker_amount_filled else t.maker_amount_filled : ℕ) : ℚ)) ∧
    (decode_order_filled_log exampleLog).toOption.map
      (fun u => (u.side, u.token_id, u.size, u.price)) =
      some (Side.buy, ['5', '5', '5'], ['2'], ['0', '.', '5']) := by
  rw [decode_order_filled_log] at h
  by_cases h3 : log.topics.length < 3
  · rw [if_pos h3] at h
    simp at h
  · rw [if_neg h3] at h
    cases hW : chunkDataWords log.data with
    | error e =>
      simp [hW] at h
    | ok words =>
      simp only [hW] at h
      by_cases h6 : words.length < 6
      · rw [if_pos h6] at h
        simp at h
      · rw [if_neg h6] at h
        rw [Except.ok.injEq] at h
        subst h
        refine ⟨?_, rfl, ?_, ?_, ?_, by decide⟩
        · dsimp only
          by_cases hside : words.getD 1 0 = 0 ∧ words.getD 2 0 ≠ 0
          · rw [if_pos hside]
            exact ⟨fun _ => hside, fun _ => rfl⟩
          · rw [if_neg hside]
            exact ⟨fun hcon => absurd hcon (by decide), fun hcond => absurd hcond hside⟩
        · dsimp only
          intro h0
          rw [if_neg (fun hcc => hcc h0), if_neg (fun hcc => hcc h0)]
          exact ⟨rfl, rfl⟩
        · dsimp only
          intro hta hlt
          rw [if_pos hta, normDec_val]
          exact divDec_exact _ USDC_SCALE _ (-6) hta (by norm_num [USDC_SCALE]) hlt
            (div_usdc_scale _)
        · dsimp only
          intro hta c e hc hval
          rw [if_pos hta, normDec_val]
          by_cases hua :
              (if (if words.getD 1 0 = 0 ∧ words.getD 2 0 ≠ 0 then Side.buy else Side.sell) =
                Side.buy then words.getD 3 0 else words.getD 4 0) = 0
          · rw [hua, divDec, if_pos rfl]
            simp [decVal]
          · exact divDec_exact _ _ c e hua hta hc hval

set_option maxRecDepth 400000 in
theorem decode_order_filled_log_spec_witness :
    decode_order_filled_log exampleLog = Except.ok c3t ∧
    (c3t.side = Side.buy ↔ (c3t.maker_asset_id = 0 ∧ c3t.taker_asset_id ≠ 0)) :=
  ⟨by decide, (decode_order_filled_log_spec exampleLog c3t (by decide)).1⟩

set_option maxRecDepth 400000 in
/-- The decoder's stored price is the 40-digit rounding, not the exact
quotient, when `collateralAmount / tokenAmount` needs more than 40
significant digits: with amounts `1` and `3` the stored price differs from
`1 / 3`. -/
theorem decode_price_inexact_cex :
    decode_order_filled_log c3badLog = Except.ok c3bt ∧
    c3bt.side = Side.buy ∧
    c3bt.maker_amount_filled = 1 ∧ c3bt.taker_amount_filled = 3 ∧
    decVal c3bt.priceDec ≠ (1 : ℚ) / (3 : ℚ) := by
  refine ⟨by decide, by decide, by decide, by decide, ?_⟩
  have hp : c3bt.priceDec = ⟨3333333333333333333333333333333333333333, -40⟩ := by decide
  rw [hp, decVal]
  intro heq
  rw [show ((-40 : ℤ)) = -((40:ℕ) : ℤ) from rfl, zpow_neg, zpow_natCast] at heq
  field_simp at heq
  norm_num at heq

/-- C6: every decoded price and size is a decimal with a coefficient of
fewer than 41 significant digits, carries no trailing zero in its
normalized coefficient, and its stored string parses back to exactly the
computed rational value. -/
theorem decode_price_size_canonical (log : RawLog) (t : Trade)
    (h : decode_order_filled_log log = Except.ok t) :
    t.priceDec.c < 10 ^ PREC ∧ t.sizeDec.c < 10 ^ PREC ∧
    (t.priceDec.c ≠ 0 → t.priceDec.c % 10 ≠ 0) ∧
    (t.sizeDec.c ≠ 0 → t.sizeDec.c % 10 ≠ 0) ∧
    parseDec? t.price = some (decVal t.priceDec) ∧
    parseDec? t.size = some (decVal t.sizeDec) := by
  rw [decode_order_filled_log] at h
  by_cases h3 : log.topics.length < 3
  · rw [if_pos h3] at h
    simp at h
  · rw [if_neg h3] at h
    cases hW : chunkDataWords log.data with
    | error e =>
      simp [hW] at h
    | ok words =>
      simp only [hW] at h
      by_cases h6 : words.length < 6
      · rw [if_pos h6] at h
        simp at h
      · rw [if_neg h6] at h
        rw [Except.ok.injEq] at h
        subst h
        refine ⟨?_, ?_, normDec_canon _, normDec_canon _,
          parseDec?_decChars _, parseDec?_decChars _⟩
        · refine lt_of_le_of_lt (normDec_c_le _) ?_
          dsimp only
          split <;> split <;> split
          all_goals first
          | exact divDec_c_lt _ _
          | exact Nat.pos_pow_of_pos PREC (by norm_num : 0 < 10)
        · refine lt_of_le_of_lt (normDec_c_le _) ?_
          dsimp only
          split <;> split <;> split
          all_goals first
          | exact divDec_c_lt _ _
          | exact Nat.pos_pow_of_pos PREC (by norm_num : 0 < 10)

set_option maxRecDepth 400000 in
theorem decode_price_size_canonical_witness :
    decode_order_filled_log exampleLog = Except.ok c3t ∧
    parseDec? c3t.price = some (decVal c3t.priceDec) :=
  ⟨by decide, (decode_price_size_canonical exampleLog c3t (by decide)).2.2.2.2.1⟩

end OGBC
